import Mathlib

/-!
Verification development for the Wolf-Goat-Cabbage solver (`main.py`).

The program is shallowly embedded: Python `frozenset`s become `Finset String`,
Python dicts keyed by states become total functions `State → Option _` (with
`none` standing for an absent key, matching `dict.get`; the few square-bracket
lookups in the source are proven to be on present keys), and the two search
loops become fuel-indexed structural recursions whose fuel is proven
sufficient.  Python compares strings by code point; `lexLt` reproduces that
order, and `insertStr`/`sortStrs` reproduce `sorted(...)` on duplicate-free
lists.
-/

namespace WGC

/-- Code-point comparison of characters, as Python compares string elements. -/
def charLtB (a b : Char) : Bool := a.toNat < b.toNat

/-- Lexicographic order on character lists by code point (Python `<` on `str`). -/
def lexLt : List Char → List Char → Bool
  | _, [] => false
  | [], _ :: _ => true
  | a :: as, b :: bs =>
    if charLtB a b then true
    else if charLtB b a then false
    else lexLt as bs

/-- Python's `<` on strings. -/
def strLt (a b : String) : Bool := lexLt a.data b.data

/-- Insertion of a string into a list, keeping ascending `strLt` order. -/
def insertStr (x : String) : List String → List String
  | [] => [x]
  | y :: ys => if strLt y x then y :: insertStr x ys else x :: y :: ys

/-- Insertion sort; on duplicate-free lists this agrees with Python `sorted`. -/
def sortStrs (l : List String) : List String := l.foldr insertStr []

/-- `lexLt` is irreflexive. -/
def lexLt_irrefl : ∀ l : List Char, lexLt l l = false := by
  intro l
  induction l with
  | nil => rfl
  | cons a as ih =>
    simp [lexLt, charLtB, Nat.lt_irrefl, ih]

/-- `lexLt` is asymmetric. -/
def lexLt_asymm : ∀ l1 l2 : List Char, lexLt l1 l2 = true → lexLt l2 l1 = false := by
  intro l1
  induction l1 with
  | nil => intro l2 _; cases l2 <;> rfl
  | cons a as ih =>
    intro l2 h
    cases l2 with
    | nil => simp [lexLt] at h
    | cons b bs =>
      simp only [lexLt, charLtB] at h ⊢
      by_cases hab : a.toNat < b.toNat
      · simp [hab, Nat.lt_asymm hab]
      · simp only [hab, if_false] at h
        by_cases hba : b.toNat < a.toNat
        · simp [hba] at h
        · simp only [hba, if_false] at h ⊢
          simp [hab, ih bs h]

/-- If neither list is `lexLt`-below the other, they are equal. -/
def lexLt_total_eq : ∀ l1 l2 : List Char,
    lexLt l1 l2 = false → lexLt l2 l1 = false → l1 = l2 := by
  intro l1
  induction l1 with
  | nil => intro l2 h _; cases l2 with
    | nil => rfl
    | cons b bs => simp [lexLt] at h
  | cons a as ih =>
    intro l2 h h'
    cases l2 with
    | nil => simp [lexLt] at h'
    | cons b bs =>
      simp only [lexLt, charLtB] at h h'
      by_cases hab : a.toNat < b.toNat
      · simp [hab] at h
      · by_cases hba : b.toNat < a.toNat
        · simp [hba] at h'
        · simp only [hab, hba, if_false] at h h'
          have hv : a.toNat = b.toNat := by omega
          have hc : a = b := Char.eq_of_val_eq (UInt32.toNat.inj hv)
          exact hc ▸ congrArg (List.cons a) (ih bs h h')

/-- `lexLt` is transitive. -/
def lexLt_trans : ∀ l1 l2 l3 : List Char,
    lexLt l1 l2 = true → lexLt l2 l3 = true → lexLt l1 l3 = true := by
  intro l1
  induction l1 with
  | nil =>
    intro l2 l3 h h'
    cases l3 with
    | nil => cases l2 with
      | nil => simp [lexLt] at h
      | cons b bs => simp [lexLt] at h'
    | cons c cs => rfl
  | cons a as ih =>
    intro l2 l3 h h'
    cases l2 with
    | nil => simp [lexLt] at h
    | cons b bs =>
      cases l3 with
      | nil => simp [lexLt] at h'
      | cons c cs =>
        simp only [lexLt, charLtB] at h h' ⊢
        by_cases hab : a.toNat < b.toNat
        · by_cases hbc : b.toNat < c.toNat
          · have hac : a.toNat < c.toNat := Nat.lt_trans hab hbc
            simp [hac]
          · simp only [hbc, if_false] at h'
            by_cases hcb : c.toNat < b.toNat
            · simp [hcb] at h'
            · have hv : b.toNat = c.toNat := by omega
              simp [hv ▸ hab]
        · simp only [hab, if_false] at h
          by_cases hba : b.toNat < a.toNat
          · simp [hba] at h
          · simp only [hba, if_false] at h
            have hv : a.toNat = b.toNat := by omega
            by_cases hbc : b.toNat < c.toNat
            · simp [hv ▸ hbc]
            · simp only [hbc, if_false] at h'
              by_cases hcb : c.toNat < b.toNat
              · simp [hcb] at h'
              · simp only [hcb, if_false] at h'
                have hac : ¬ a.toNat < c.toNat := by omega
                have hca : ¬ c.toNat < a.toNat := by omega
                simp only [hac, hca, if_false]
                exact ih bs cs h h'

/-- `strLt` is asymmetric. -/
def strLt_asymm (a b : String) (h : strLt a b = true) : strLt b a = false :=
  lexLt_asymm a.data b.data h

/-- If neither string is below the other, they are equal. -/
def strLt_total_eq (a b : String) (h : strLt a b = false) (h' : strLt b a = false) :
    a = b := by
  cases a; cases b
  exact congrArg String.mk (lexLt_total_eq _ _ h h')

/-- `strLt` is transitive. -/
def strLt_trans (a b c : String) (h : strLt a b = true) (h' : strLt b c = true) :
    strLt a c = true :=
  lexLt_trans a.data b.data c.data h h'

/-- Inserting two strings commutes, so insertion sort lifts to multisets. -/
def insertStr_comm : ∀ (x y : String) (l : List String),
    insertStr x (insertStr y l) = insertStr y (insertStr x l) := by
  intro x y l
  induction l with
  | nil =>
    simp only [insertStr]
    by_cases hyx : strLt y x = true
    · simp [hyx, strLt_asymm _ _ hyx]
    · by_cases hxy : strLt x y = true
      · simp [hxy, strLt_asymm _ _ hxy]
      · have : x = y := strLt_total_eq x y (by simpa using hxy) (by simpa using hyx)
        subst this
        simp
  | cons c cl ih =>
    simp only [insertStr]
    by_cases hcy : strLt c y = true
    · by_cases hcx : strLt c x = true
      · simp only [hcy, hcx, if_true, insertStr, ih]
      · simp only [hcy, hcx, if_true, if_false]
        by_cases hyx : strLt y x = true
        · exfalso
          have hcx' : strLt c x = true := strLt_trans c y x hcy hyx
          simp [hcx'] at hcx
        · by_cases hxy : strLt x y = true
          · simp [insertStr, hcy, hcx, hxy]
          · exfalso
            have : x = y := strLt_total_eq x y (by simpa using hxy) (by simpa using hyx)
            subst this
            simp [hcy] at hcx
    · by_cases hcx : strLt c x = true
      · simp only [hcy, hcx, if_true, if_false]
        by_cases hxy : strLt x y = true
        · exfalso
          have hcy' : strLt c y = true := strLt_trans c x y hcx hxy
          simp [hcy'] at hcy
        · by_cases hyx : strLt y x = true
          · simp [insertStr, hcx, hcy, hyx]
          · exfalso
            have : x = y := strLt_total_eq x y (by simpa using hxy) (by simpa using hyx)
            subst this
            simp [hcx] at hcy
      · simp only [hcy, hcx, if_false]
        by_cases hyx : strLt y x = true
        · have hxy : strLt x y = false := strLt_asymm _ _ hyx
          simp [hyx, hxy, insertStr, hcx, hcy]
        · by_cases hxy : strLt x y = true
          · simp [hyx, hxy, insertStr, hcx, hcy]
          · have : x = y := strLt_total_eq x y (by simpa using hxy) (by simpa using hyx)
            subst this
            simp

instance : LeftCommutative insertStr := ⟨fun a b l => insertStr_comm a b l⟩

/-- The elements of a `Finset` of strings in ascending code-point order: the
meaning of Python's `sorted(list(bank))` on a `frozenset`/`set` bank. -/
def sortedBank (b : Finset String) : List String := Multiset.foldr insertStr [] b.val

/-- The `Instance` dataclass of `main.py`: a plain frozen record.  The Python
dict `start_item_side` is embedded as an association list. -/
structure Instance where
  name : String
  items : List String
  forbidden_pairs : List (String × String)
  start_farmer : String
  start_item_side : List (String × String)
  goal_side : String
deriving DecidableEq, Repr

/-- A search state: the frozenset of items on the left bank plus the farmer's
side, exactly `State = Tuple[frozenset, str]` in the source. -/
abbrev State := Finset String × String

/-- `INSTANCE_A` of `main.py` (the classic wolf/goat/cabbage instance). -/
def INSTANCE_A : Instance :=
  { name := "WGC A (classic)"
    items := ["W", "G", "C"]
    forbidden_pairs := [("W", "G"), ("G", "C")]
    start_farmer := "L"
    start_item_side := [("W", "L"), ("G", "L"), ("C", "L")]
    goal_side := "R" }

/-- `INSTANCE_B` of `main.py` (goat starts on the right bank). -/
def INSTANCE_B : Instance :=
  { name := "WGC B (goat starts right)"
    items := ["W", "G", "C"]
    forbidden_pairs := [("W", "G"), ("G", "C")]
    start_farmer := "L"
    start_item_side := [("W", "L"), ("G", "R"), ("C", "L")]
    goal_side := "R" }

/-- `make_start_state`: the set of items whose starting side is `'L'`, paired
with the farmer's starting side. -/
def make_start_state (inst : Instance) : State :=
  (((inst.start_item_side.filter (fun p => p.2 == "L")).map Prod.fst).toFinset,
   inst.start_farmer)

/-- `is_goal`: with goal side `'R'` the left bank must be empty, otherwise it
must hold as many items as the catalog. -/
def is_goal (state : State) (inst : Instance) : Bool :=
  if inst.goal_side == "R" then state.1.card == 0
  else state.1.card == inst.items.length

/-- `bank_unsafe`: a bank is unsafe iff the farmer is not there and some
forbidden pair is together on it. -/
def bank_unsafe (inst : Instance) (bank : Finset String) (farmer_here : Bool) : Bool :=
  if farmer_here then false
  else inst.forbidden_pairs.any (fun p => decide (p.1 ∈ bank) && decide (p.2 ∈ bank))

/-- `state_valid`: neither the left bank nor the derived right bank is unsafe. -/
def state_valid (state : State) (inst : Instance) : Bool :=
  let left := state.1
  let farmer := state.2
  let items_set := inst.items.toFinset
  let right := items_set \ left
  let farmer_left := farmer == "L"
  ! bank_unsafe inst left farmer_left && ! bank_unsafe inst right (!farmer_left)

/-- The body of the candidate loop in `next_states`: build the crossed state
and its description, and keep the candidate only if the result is
`state_valid`.  (`cargo or 'nothing'` in the source also treats the empty
string as falsy, hence the inner `if`.) -/
def mk_move (inst : Instance) (left : Finset String) (farmer_left : Bool)
    (cargo : Option String) : Option (State × String) :=
  let new_left : Finset String :=
    if farmer_left then
      match cargo with
      | none => left
      | some c => left.erase c
    else
      match cargo with
      | none => left
      | some c => insert c left
  let new_farmer : String := if farmer_left then "R" else "L"
  let desc : String :=
    "Farmer takes " ++
      (match cargo with
       | none => "nothing"
       | some c => if c == "" then "nothing" else c) ++
      (if farmer_left then " L→R" else " R→L")
  let ns : State := (new_left, new_farmer)
  if state_valid ns inst then some (ns, desc) else none

/-- `next_states`: the farmer crosses with zero or one item from his bank;
candidates are `None` followed by the current bank in Python-`sorted` order,
and a candidate is kept only if the resulting state is `state_valid`. -/
def next_states (state : State) (inst : Instance) : List (State × String) :=
  let left := state.1
  let farmer := state.2
  let items_set := inst.items.toFinset
  let right := items_set \ left
  let farmer_left := farmer == "L"
  let current_bank := if farmer_left then left else right
  let candidates : List (Option String) := none :: (sortedBank current_bank).map some
  candidates.filterMap (mk_move inst left farmer_left)

/-- Modelled from the spec, for claim C6 only: the successor enumeration as
the claim words it, with the per-item candidates drawn in CATALOG order (the
order of the instance's `items` tuple) instead of the source's sorted order. -/
def next_states_catalog_order (state : State) (inst : Instance) :
    List (State × String) :=
  let left := state.1
  let farmer := state.2
  let items_set := inst.items.toFinset
  let right := items_set \ left
  let farmer_left := farmer == "L"
  let current_bank := if farmer_left then left else right
  let candidates : List (Option String) :=
    none :: (inst.items.filter (fun i => decide (i ∈ current_bank))).map some
  candidates.filterMap (mk_move inst left farmer_left)

/-- The mutable search bookkeeping of `bfs_solve_with_metrics`: queue, parent
and action dicts (total functions, `none` = absent key), visited set and the
three counters. -/
structure BfsSt where
  q : List State
  parent : State → Option State
  action : State → Option String
  visited : Finset State
  nodes_generated : Nat
  nodes_expanded : Nat
  max_frontier : Nat

/-- The metrics dict returned by `bfs_solve_with_metrics`. -/
structure Metrics where
  nodes_generated : Nat
  nodes_expanded : Nat
  max_frontier_size : Nat
  solution_depth : Int
  solution_cost : Int
deriving DecidableEq, Repr

/-- One iteration of the successor loop of the BFS: count the generated node,
and if it is unseen, mark it visited, record backpointers and enqueue it. -/
def bfs_scan (s : State) (st : BfsSt) (m : State × String) : BfsSt :=
  let st1 := { st with nodes_generated := st.nodes_generated + 1 }
  if m.1 ∈ st1.visited then st1
  else
    let q2 := st1.q ++ [m.1]
    { st1 with
      visited := insert m.1 st1.visited
      parent := fun k => if k = m.1 then some s else st1.parent k
      action := fun k => if k = m.1 then some m.2 else st1.action k
      q := q2
      max_frontier := if st1.max_frontier < q2.length then q2.length else st1.max_frontier }

/-- The backpointer walk shared by both solvers: follow `parent` from the goal,
collecting `(state, action)` pairs; consing while walking yields the same list
as Python's append-then-reverse.  The fuel bound is chosen large enough at
every call site (the walk is proven to reach the start within it). -/
def chain (parent : State → Option State) (action : State → Option String) :
    Nat → Option State → List (State × Option String) → List (State × Option String)
  | 0, _, acc => acc
  | _ + 1, none, acc => acc
  | fuel + 1, some s, acc => chain parent action fuel (parent s) ((s, action s) :: acc)

/-- The failure metrics of the BFS: sentinel depth and cost `-1`. -/
def bfs_fail_metrics (st : BfsSt) : Metrics :=
  { nodes_generated := st.nodes_generated
    nodes_expanded := st.nodes_expanded
    max_frontier_size := st.max_frontier
    solution_depth := -1
    solution_cost := -1 }

/-- The `while q:` loop of `bfs_solve_with_metrics`, indexed by fuel (`none` =
ran out of fuel; `bfs_fuel` below is proven sufficient).  The final `BfsSt` is
returned alongside the path and metrics so that internal quantities such as
the visited set can be inspected. -/
def bfsF (inst : Instance) :
    Nat → BfsSt → Option (List (State × Option String) × Metrics × BfsSt)
  | 0, _ => none
  | fuel + 1, st =>
    match st.q with
    | [] => some ([], bfs_fail_metrics st, st)
    | s :: rest =>
      let st1 := { st with q := rest, nodes_expanded := st.nodes_expanded + 1 }
      if is_goal s inst then
        let path := chain st1.parent st1.action (st1.visited.card + 1) (some s) []
        some (path,
          { nodes_generated := st1.nodes_generated
            nodes_expanded := st1.nodes_expanded
            max_frontier_size := st1.max_frontier
            solution_depth := (path.length : Int) - 1
            solution_cost := (path.length : Int) - 1 },
          st1)
      else
        bfsF inst fuel ((next_states s inst).foldl (bfs_scan s) st1)

/-- The initial `BfsSt`: queue and visited hold the start; `parent[start] =
None` and `action[start] = None` coincide with the absent-key default. -/
def bfs_init (inst : Instance) : BfsSt :=
  let start := make_start_state inst
  { q := [start]
    parent := fun _ => none
    action := fun _ => none
    visited := {start}
    nodes_generated := 0
    nodes_expanded := 0
    max_frontier := 1 }

/-- A finite superset of every state the search can ever construct: subsets of
the start's left bank joined with the catalog, with the farmer on the start
side or one of `'L'`/`'R'`. -/
def stateSpace (inst : Instance) : Finset State :=
  ((make_start_state inst).1 ∪ inst.items.toFinset).powerset ×ˢ
    insert inst.start_farmer {"L", "R"}

/-- Fuel sufficient for the BFS loop (proven below). -/
def bfs_fuel (inst : Instance) : Nat := 2 * (stateSpace inst).card + 2

/-- The BFS run, exposing the final internal search state. -/
def bfs_run (inst : Instance) :
    Option (List (State × Option String) × Metrics × BfsSt) :=
  bfsF inst (bfs_fuel inst) (bfs_init inst)

/-- `bfs_solve_with_metrics`: the `(path, metrics)` pair the caller sees. -/
def bfs_solve_with_metrics (inst : Instance) :
    Option (List (State × Option String) × Metrics) :=
  (bfs_run inst).map (fun r => (r.1, r.2.1))

/-- The mutable bookkeeping of `ids_solve_with_metrics`: the three running
totals and the shared parent/action dicts. -/
structure IdsSt where
  total_gen : Nat
  total_exp : Nat
  max_frontier : Nat
  parent : State → Option State
  action : State → Option String

/-- The metrics dict returned by `ids_solve_with_metrics` (it additionally
carries `depth_limit_used`). -/
structure IdsMetrics where
  nodes_generated : Nat
  nodes_expanded : Nat
  max_frontier_size : Nat
  solution_depth : Int
  solution_cost : Int
  depth_limit_used : Option Nat
deriving DecidableEq, Repr

/-- The `for ns, desc in next_states(node, inst)` loop of `dls`: count each
generated successor, skip ancestors on the active path, record backpointers,
recurse (through `recur`), short-circuit on a found goal, and accumulate the
cutoff flag.  Passing `insert ns path_set` to the recursive call and the
unchanged `path_set` to the remaining iterations models Python's
`path_set.add(ns)` / `path_set.remove(ns)`. -/
def dls_loop (node : State)
    (recur : State → Finset State → IdsSt → IdsSt × Option State × Bool) :
    List (State × String) → Finset State → IdsSt → Bool → IdsSt × Option State × Bool
  | [], _, st, cutoff_flag => (st, none, cutoff_flag)
  | (ns, desc) :: rest, path_set, st, cutoff_flag =>
    let st1 := { st with total_gen := st.total_gen + 1 }
    if ns ∈ path_set then dls_loop node recur rest path_set st1 cutoff_flag
    else
      let st2 := { st1 with
        parent := fun k => if k = ns then some node else st1.parent k
        action := fun k => if k = ns then some desc else st1.action k }
      let r := recur ns (insert ns path_set) st2
      match r.2.1 with
      | some g => (r.1, some g, false)
      | none => dls_loop node recur rest path_set r.1 (cutoff_flag || r.2.2)

/-- `dls`, the depth-limited search of `ids_solve_with_metrics`.  The Python
recursion always bottoms out at `depth == limit`; the embedding makes this
structural with fuel `limit - depth + 1`, so the fuel-0 branch is unreachable
at every actual call. -/
def dlsF (inst : Instance) :
    Nat → State → Nat → Nat → Finset State → IdsSt → IdsSt × Option State × Bool
  | 0, _, _, _, _, st => (st, none, true)
  | fuel + 1, node, depth, limit, path_set, st =>
    let st1 := { st with
      total_exp := st.total_exp + 1
      max_frontier := if st.max_frontier < depth + 1 then depth + 1 else st.max_frontier }
    if is_goal node inst then (st1, some node, false)
    else if depth == limit then (st1, none, true)
    else
      dls_loop node (fun ns ps st' => dlsF inst fuel ns (depth + 1) limit ps st')
        (next_states node inst) path_set st1 false

/-- The failure result of the IDS: sentinel metrics with
`depth_limit_used = None`. -/
def ids_fail_metrics (st : IdsSt) : IdsMetrics :=
  { nodes_generated := st.total_gen
    nodes_expanded := st.total_exp
    max_frontier_size := st.max_frontier
    solution_depth := -1
    solution_cost := -1
    depth_limit_used := none }

/-- The `for limit in range(max_depth_cap + 1)` loop of
`ids_solve_with_metrics`: clear the maps, run one depth-limited search from
the start, return the reconstructed path on success, continue on cutoff and
fall through to the failure result otherwise (Python's `break` and loop
exhaustion reach the same final `return`). -/
def ids_go (inst : Instance) :
    List Nat → IdsSt → List (State × Option String) × IdsMetrics
  | [], st => ([], ids_fail_metrics st)
  | limit :: rest, st =>
    let start := make_start_state inst
    let st0 := { st with parent := fun _ => none, action := fun _ => none }
    let r := dlsF inst (limit + 1) start 0 limit {start} st0
    match r.2.1 with
    | some g =>
      let path := chain r.1.parent r.1.action (limit + 2) (some g) []
      (path,
        { nodes_generated := r.1.total_gen
          nodes_expanded := r.1.total_exp
          max_frontier_size := r.1.max_frontier
          solution_depth := (path.length : Int) - 1
          solution_cost := (path.length : Int) - 1
          depth_limit_used := some limit })
    | none => if r.2.2 then ids_go inst rest r.1 else ([], ids_fail_metrics r.1)

/-- `ids_solve_with_metrics` with an explicit depth cap. -/
def ids_solve_with_metrics (inst : Instance) (max_depth_cap : Nat) :
    List (State × Option String) × IdsMetrics :=
  ids_go inst (List.range (max_depth_cap + 1))
    { total_gen := 0, total_exp := 0, max_frontier := 1
      parent := fun _ => none, action := fun _ => none }

/-- `ids_solve_with_metrics` at its default cap of 64. -/
def ids_solve_default (inst : Instance) : List (State × Option String) × IdsMetrics :=
  ids_solve_with_metrics inst 64

/-- A state reachable from the start in exactly `n` moves of `next_states`. -/
inductive ReachableIn (inst : Instance) : Nat → State → Prop where
  | start : ReachableIn inst 0 (make_start_state inst)
  | step {n : Nat} {s t : State} {d : String} :
      ReachableIn inst n s → (t, d) ∈ next_states s inst → ReachableIn inst (n + 1) t

/-- A state reachable from the start by some legal move sequence. -/
def Reachable (inst : Instance) (s : State) : Prop := ∃ n, ReachableIn inst n s

/-- Instance validity as the spec states it: non-empty catalog, every
forbidden pair drawn from the catalog, and well-formed sides. -/
def instance_ok (inst : Instance) : Prop :=
  inst.items ≠ [] ∧
  (∀ p ∈ inst.forbidden_pairs, p.1 ∈ inst.items ∧ p.2 ∈ inst.items) ∧
  inst.start_farmer ∈ (["L", "R"] : List String) ∧
  inst.goal_side ∈ (["L", "R"] : List String) ∧
  (inst.start_item_side.map Prod.fst) = inst.items ∧
  (∀ p ∈ inst.start_item_side, p.2 ∈ (["L", "R"] : List String)) ∧
  inst.items.Nodup

/-- A malformed instance with an empty item catalog (for claim C4). -/
def INSTANCE_EMPTY : Instance :=
  { name := "empty catalog"
    items := []
    forbidden_pairs := []
    start_farmer := "L"
    start_item_side := []
    goal_side := "R" }

/-- A malformed instance whose forbidden pair references items absent from the
catalog (for claim C4). -/
def INSTANCE_DANGLING : Instance :=
  { name := "dangling pair"
    items := ["A"]
    forbidden_pairs := [("X", "Y")]
    start_farmer := "L"
    start_item_side := [("A", "L")]
    goal_side := "R" }

/-- A two-item instance with no forbidden pairs whose catalog order disagrees
with sorted order (for claim C6). -/
def INSTANCE_BA : Instance :=
  { name := "BA"
    items := ["B", "A"]
    forbidden_pairs := []
    start_farmer := "L"
    start_item_side := [("B", "L"), ("A", "L")]
    goal_side := "R" }

/-- An unsolvable instance: three items, every pair forbidden, so no first
move is safe (for claim C7). -/
def INSTANCE_STUCK : Instance :=
  { name := "stuck"
    items := ["A", "B", "C"]
    forbidden_pairs := [("A", "B"), ("A", "C"), ("B", "C")]
    start_farmer := "L"
    start_item_side := [("A", "L"), ("B", "L"), ("C", "L")]
    goal_side := "R" }

/-- A configuration-valid instance whose START state is already unsafe (the
farmer begins on the right while a forbidden pair sits on the left); the
solvers accept it and return paths through the invalid start (for claim C10). -/
def INSTANCE_BADSTART : Instance :=
  { name := "bad start"
    items := ["A", "B"]
    forbidden_pairs := [("A", "B")]
    start_farmer := "R"
    start_item_side := [("A", "L"), ("B", "L")]
    goal_side := "R" }

/-- Every recorded parent is a state that failed the goal test (both solvers
assign `parent[ns] = node` only after `node` failed its goal check). -/
def ParentsNotGoal (inst : Instance) (parent : State → Option State) : Prop :=
  ∀ k x, parent k = some x → is_goal x inst = false

/-- Every recorded backpointer is a genuine `next_states` edge, with the
recorded action being the label of that edge. -/
def EdgesOk (inst : Instance) (parent : State → Option State)
    (action : State → Option String) : Prop :=
  ∀ k x, parent k = some x →
    ∃ d, action k = some d ∧ (k, d) ∈ next_states x inst

/-- `PChainIn parent inst ps s n`: following `parent` from `s` walks down a
chain of length `n` ending at the start state (whose parent is absent), with
every state of the chain inside `ps`. -/
def PChainIn (parent : State → Option State) (inst : Instance)
    (ps : Finset State) : State → Nat → Prop
  | s, 0 => s = make_start_state inst ∧ parent s = none ∧ s ∈ ps
  | s, n + 1 => s ∈ ps ∧ ∃ x, parent s = some x ∧ PChainIn parent inst ps x n

/-- `PChain parent inst s n`: following `parent` from `s` walks down a chain
of length `n` ending at the start state. -/
def PChain (parent : State → Option State) (inst : Instance) : State → Nat → Prop
  | s, 0 => s = make_start_state inst ∧ parent s = none
  | s, n + 1 => ∃ x, parent s = some x ∧ PChain parent inst x n

/-- A walk of length `n` from `s` to some goal state, whose states after `s`
all avoid the set `A`. -/
inductive WalkAvoid (inst : Instance) (A : Finset State) : State → Nat → Prop where
  | here {s : State} : is_goal s inst = true → WalkAvoid inst A s 0
  | step {s t : State} {d : String} {n : Nat} :
      (t, d) ∈ next_states s inst → t ∉ A → WalkAvoid inst A t n →
      WalkAvoid inst A s (n + 1)

/-- Termination measure of the BFS loop: the queue shrinks or the visited set
grows towards the finite state space on every iteration. -/
def bfs_measure (inst : Instance) (st : BfsSt) : Nat :=
  2 * ((stateSpace inst).card - st.visited.card) + st.q.length

/-- Every visited state carries a rooted in-visited parent chain of MINIMAL
length: no legal move sequence reaches it in fewer steps.  This is the
depth-correctness invariant of the BFS (first discovery is optimal). -/
def BfsChainMin (inst : Instance) (st : BfsSt) : Prop :=
  ∀ k ∈ st.visited, ∃ δ, δ < st.visited.card ∧
    PChainIn st.parent inst st.visited k δ ∧
    ∀ n, ReachableIn inst n k → δ ≤ n

/-- The queue splits into a layer of recorded depth `L` followed by a layer
of recorded depth `L + 1` (depths read off the parent chains). -/
def BfsWindowAt (inst : Instance) (L : Nat) (st : BfsSt) : Prop :=
  ∃ qa qb, st.q = qa ++ qb ∧
    (∀ v ∈ qa, ∀ δ, PChainIn st.parent inst st.visited v δ → δ = L) ∧
    (∀ v ∈ qb, ∀ δ, PChainIn st.parent inst st.visited v δ → δ = L + 1)

/-- Every expanded state other than `s` has all its successors visited
(`s` is the state whose expansion is in progress). -/
def BfsClosedExcept (inst : Instance) (s : State) (st : BfsSt) : Prop :=
  ∀ k ∈ st.visited, k ∉ st.q → k ≠ s → ∀ p ∈ next_states k inst, p.1 ∈ st.visited

/-- Every expanded state failed its goal check. -/
def BfsExpandedNoGoal (inst : Instance) (st : BfsSt) : Prop :=
  ∀ k ∈ st.visited, k ∉ st.q → is_goal k inst = false

/-! ### Helper lemmas -/

/-- Membership in an insertion. -/
theorem mem_insertStr (a x : String) (l : List String) :
    a ∈ insertStr x l ↔ a = x ∨ a ∈ l := by
  induction l with
  | nil => simp [insertStr]
  | cons y ys ih =>
    simp only [insertStr]
    by_cases h : strLt y x = true
    · rw [if_pos h]
      simp only [List.mem_cons, ih]
      tauto
    · rw [if_neg h]
      simp only [List.mem_cons]

/-- Inserting a fresh string preserves strict sortedness. -/
theorem pairwise_insertStr (x : String) (l : List String) (hx : x ∉ l)
    (h : l.Pairwise (fun a b => strLt a b = true)) :
    (insertStr x l).Pairwise (fun a b => strLt a b = true) := by
  induction l with
  | nil => simp [insertStr]
  | cons y ys ih =>
    have hxy : x ≠ y := fun hcon => hx (hcon ▸ List.mem_cons_self y ys)
    have hx' : x ∉ ys := fun hcon => hx (List.mem_cons_of_mem y hcon)
    rcases List.pairwise_cons.mp h with ⟨hy, hys⟩
    simp only [insertStr]
    by_cases hc : strLt y x = true
    · simp only [hc, if_true]
      refine List.pairwise_cons.mpr ⟨?_, ih hx' hys⟩
      intro a ha
      rcases (mem_insertStr a x ys).mp ha with rfl | ha'
      · exact hc
      · exact hy a ha'
    · simp only [hc, if_false]
      have hxyl : strLt x y = true := by
        rcases Bool.eq_false_or_eq_true (strLt x y) with h1 | h0
        · exact h1
        · exact absurd (strLt_total_eq x y h0 (by simpa using hc)) hxy
      refine List.pairwise_cons.mpr ⟨?_, h⟩
      intro a ha
      rcases List.mem_cons.mp ha with rfl | ha'
      · exact hxyl
      · exact strLt_trans x y a hxyl (hy a ha')

/-- `sortedBank` of a `Finset.cons`. -/
theorem sortedBank_cons (a : String) (s : Finset String) (h : a ∉ s) :
    sortedBank (Finset.cons a s h) = insertStr a (sortedBank s) := by
  rw [sortedBank, sortedBank, Finset.cons_val, Multiset.foldr_cons]

/-- `sortedBank` has exactly the bank's elements. -/
theorem mem_sortedBank (b : Finset String) (a : String) :
    a ∈ sortedBank b ↔ a ∈ b := by
  induction b using Finset.cons_induction_on with
  | h₁ => simp [sortedBank]
  | h₂ h ih =>
    rename_i x s
    rw [sortedBank_cons]
    simp [mem_insertStr, ih]

/-- `sortedBank` is strictly ascending in the Python string order. -/
theorem sortedBank_pairwise (b : Finset String) :
    (sortedBank b).Pairwise (fun a c => strLt a c = true) := by
  induction b using Finset.cons_induction_on with
  | h₁ => simp [sortedBank]
  | h₂ h ih =>
    rename_i x s
    rw [sortedBank_cons]
    exact pairwise_insertStr x (sortedBank s) (fun hc => h ((mem_sortedBank s x).mp hc)) ih

/-- Whatever `mk_move` returns has passed the `state_valid` filter. -/
theorem mk_move_valid (inst : Instance) (left : Finset String) (farmer_left : Bool)
    (cargo : Option String) (p : State × String)
    (h : mk_move inst left farmer_left cargo = some p) : state_valid p.1 inst = true := by
  unfold mk_move at h
  simp only at h
  repeat split at h
  all_goals try (injection h with h2; subst h2; assumption)
  all_goals simp at h
  all_goals rcases h with ⟨hv, rfl⟩
  all_goals exact hv

/-- The state built by `mk_move` puts the farmer on the opposite bank. -/
theorem mk_move_farmer (inst : Instance) (left : Finset String) (farmer_left : Bool)
    (cargo : Option String) (p : State × String)
    (h : mk_move inst left farmer_left cargo = some p) :
    p.1.2 = if farmer_left then "R" else "L" := by
  unfold mk_move at h
  simp only at h
  repeat split at h
  all_goals try (injection h with h2; subst h2; simp_all)
  all_goals simp at h
  all_goals rcases h with ⟨hv, rfl⟩
  all_goals simp_all

/-- Every move produced by `next_states` leads to a `state_valid` state. -/
theorem next_states_safe (inst : Instance) (s : State) (p : State × String)
    (h : p ∈ next_states s inst) : state_valid p.1 inst = true := by
  unfold next_states at h
  simp only [List.mem_filterMap] at h
  rcases h with ⟨cargo, _, hm⟩
  exact mk_move_valid inst s.1 (s.2 == "L") cargo p hm

/-- The farmer's side always changes along a `next_states` edge. -/
theorem next_states_farmer_flips (inst : Instance) (s : State) (p : State × String)
    (h : p ∈ next_states s inst) : p.1.2 ≠ s.2 := by
  unfold next_states at h
  simp only [List.mem_filterMap] at h
  rcases h with ⟨cargo, _, hm⟩
  have hfa := mk_move_farmer inst s.1 (s.2 == "L") cargo p hm
  by_cases hf : (s.2 == "L") = true
  · rw [if_pos hf] at hfa
    have hL : s.2 = "L" := by simpa using hf
    rw [hfa, hL]
    decide
  · rw [if_neg hf] at hfa
    have hL : ¬ s.2 = "L" := by simpa using hf
    rw [hfa]
    intro hc
    exact hL hc.symm

/-- The reconstruction walk is parent-linked between consecutive elements,
provided the accumulator already is and its head's parent is the cursor. -/
theorem chain_chain' (parent : State → Option State) (action : State → Option String) :
    ∀ (fuel : Nat) (cur : Option State) (acc : List (State × Option String)),
      List.Chain' (fun a b => parent b.1 = some a.1) acc →
      (∀ h : acc ≠ [], parent ((acc.head h).1) = cur) →
      List.Chain' (fun a b => parent b.1 = some a.1) (chain parent action fuel cur acc) := by
  intro fuel
  induction fuel with
  | zero => intro cur acc h _; exact h
  | succ fuel ih =>
    intro cur acc hacc hhead
    match cur with
    | none => exact hacc
    | some s =>
      show List.Chain' _ (chain parent action fuel (parent s) ((s, action s) :: acc))
      refine ih (parent s) ((s, action s) :: acc) ?_ ?_
      · cases acc with
        | nil => simp
        | cons a l =>
          refine List.chain'_cons.mpr ⟨?_, hacc⟩
          exact hhead (by simp)
      · intro _
        simp

/-- The reconstruction walk only prepends, so a non-empty accumulator keeps
its last element. -/
theorem chain_getLast? (parent : State → Option State) (action : State → Option String) :
    ∀ (fuel : Nat) (cur : Option State) (acc : List (State × Option String)),
      acc ≠ [] →
      (chain parent action fuel cur acc).getLast? = acc.getLast? := by
  intro fuel
  induction fuel with
  | zero => intro cur acc _; rfl
  | succ fuel ih =>
    intro cur acc hne
    match cur with
    | none => rfl
    | some s =>
      show (chain parent action fuel (parent s) ((s, action s) :: acc)).getLast? = _
      rw [ih (parent s) ((s, action s) :: acc) (by simp)]
      cases acc with
      | nil => exact absurd rfl hne
      | cons b l => rfl

/-- Reconstruction from a goal cursor ends at the goal paired with its
recorded action. -/
theorem chain_last_of_goal (parent : State → Option State)
    (action : State → Option String) (fuel : Nat) (g : State) :
    (chain parent action (fuel + 1) (some g) []).getLast? = some (g, action g) := by
  show (chain parent action fuel (parent g) [(g, action g)]).getLast? = _
  rw [chain_getLast? parent action fuel (parent g) [(g, action g)] (by simp)]
  rfl

/-- Every element of the reconstruction walk pairs a state with its recorded
action, provided the accumulator already does. -/
theorem chain_snd (parent : State → Option State) (action : State → Option String) :
    ∀ (fuel : Nat) (cur : Option State) (acc : List (State × Option String)),
      (∀ x ∈ acc, x.2 = action x.1) →
      ∀ x ∈ chain parent action fuel cur acc, x.2 = action x.1 := by
  intro fuel
  induction fuel with
  | zero => intro cur acc h; exact h
  | succ fuel ih =>
    intro cur acc hacc
    match cur with
    | none => exact hacc
    | some s =>
      refine ih (parent s) ((s, action s) :: acc) ?_
      intro x hx
      rcases List.mem_cons.mp hx with rfl | hx'
      · rfl
      · exact hacc x hx'

/-- In a `Chain'`-linked list, every element except the last is related to
some element. -/
theorem chain'_dropLast_rel {α : Type} (R : α → α → Prop) :
    ∀ l : List α, List.Chain' R l → ∀ x ∈ l.dropLast, ∃ y, R x y := by
  intro l
  induction l with
  | nil => intro _ x hx; simp at hx
  | cons a l ih =>
    intro hc x hx
    cases l with
    | nil => simp at hx
    | cons b l' =>
      rcases List.chain'_cons.mp hc with ⟨hr, hc'⟩
      rcases List.mem_cons.mp (by simpa using hx) with rfl | hx'
      · exact ⟨b, hr⟩
      · exact ih hc' x (by simpa using hx')

/-- A chain inside `ps` is a chain inside any superset. -/
theorem PChainIn_mono (parent : State → Option State) (inst : Instance)
    {ps ps' : Finset State} (hsub : ps ⊆ ps') :
    ∀ (s : State) (n : Nat), PChainIn parent inst ps s n → PChainIn parent inst ps' s n := by
  intro s n
  induction n generalizing s with
  | zero => intro h; exact ⟨h.1, h.2.1, hsub h.2.2⟩
  | succ n ih =>
    intro h
    rcases h with ⟨hs, x, hx, hch⟩
    exact ⟨hsub hs, x, hx, ih x hch⟩

/-- A chain inside `ps` survives any parent update that agrees on `ps`. -/
theorem PChainIn_frame {parent parent' : State → Option State} (inst : Instance)
    {ps : Finset State} (hagree : ∀ k ∈ ps, parent' k = parent k) :
    ∀ (s : State) (n : Nat), PChainIn parent inst ps s n → PChainIn parent' inst ps s n := by
  intro s n
  induction n generalizing s with
  | zero => intro h; exact ⟨h.1, (hagree s h.2.2).trans h.2.1, h.2.2⟩
  | succ n ih =>
    intro h
    rcases h with ⟨hs, x, hx, hch⟩
    exact ⟨hs, x, (hagree s hs).trans hx, ih x hch⟩

/-- Forget the membership component of an in-set chain. -/
theorem PChainIn_toPChain (parent : State → Option State) (inst : Instance)
    (ps : Finset State) :
    ∀ (s : State) (n : Nat), PChainIn parent inst ps s n → PChain parent inst s n := by
  intro s n
  induction n generalizing s with
  | zero => intro h; exact ⟨h.1, h.2.1⟩
  | succ n ih =>
    intro h
    rcases h with ⟨_, x, hx, hch⟩
    exact ⟨x, hx, ih x hch⟩

/-- The parent walk is a function, so chain lengths are unique. -/
theorem PChain_unique (parent : State → Option State) (inst : Instance) :
    ∀ (n m : Nat) (s : State),
      PChain parent inst s n → PChain parent inst s m → n = m := by
  intro n
  induction n with
  | zero =>
    intro m s h1 h2
    cases m with
    | zero => rfl
    | succ m =>
      rcases h2 with ⟨x, hx, _⟩
      rw [h1.2] at hx
      cases hx
  | succ n ih =>
    intro m s h1 h2
    cases m with
    | zero =>
      rcases h1 with ⟨x, hx, _⟩
      rw [h2.2] at hx
      cases hx
    | succ m =>
      rcases h1 with ⟨x, hx, hch⟩
      rcases h2 with ⟨y, hy, hch'⟩
      rw [hx] at hy
      cases hy
      exact congrArg Nat.succ (ih m x hch hch')

/-- States on a chain stay inside `ps`. -/
theorem PChainIn_self_mem (parent : State → Option State) (inst : Instance)
    (ps : Finset State) (s : State) (n : Nat) (h : PChainIn parent inst ps s n) :
    s ∈ ps := by
  cases n with
  | zero => exact h.2.2
  | succ n => exact h.1

/-- Reconstruction along a rooted parent chain of length `δ` yields, before
the accumulator, a list of `δ + 1` elements headed by the start state paired
with its recorded action. -/
theorem chain_of_pchain (parent : State → Option State) (action : State → Option String)
    (inst : Instance) :
    ∀ (δ : Nat) (c : State), PChain parent inst c δ →
      ∀ (fuel : Nat), δ < fuel → ∀ acc, ∃ out,
        chain parent action fuel (some c) acc = out ++ acc ∧
        out.head? = some (make_start_state inst,
          action (make_start_state inst)) ∧
        out.length = δ + 1 := by
  intro δ
  induction δ with
  | zero =>
    intro c hch fuel hfuel acc
    match fuel, hfuel with
    | fuel + 1, _ =>
      refine ⟨[(c, action c)], ?_, ?_, rfl⟩
      · show chain parent action fuel (parent c) ((c, action c) :: acc) = _
        rw [hch.2]
        cases fuel <;> rfl
      · rw [hch.1]
        rfl
  | succ δ ih =>
    intro c hch fuel hfuel acc
    rcases hch with ⟨x, hx, hch⟩
    match fuel, hfuel with
    | fuel + 1, hfuel =>
      have hlt : δ < fuel := by omega
      rcases ih x hch fuel hlt ((c, action c) :: acc) with ⟨out, hout, hhead, hlen⟩
      refine ⟨out ++ [(c, action c)], ?_, ?_, ?_⟩
      · show chain parent action fuel (parent c) ((c, action c) :: acc) = _
        rw [hx, hout]
        simp
      · cases out with
        | nil => simp at hlen
        | cons a l => simpa using hhead
      · simp [hlen]

/-- Where the parent map of `bfs_scan` can point. -/
theorem bfs_scan_parent (s : State) (st : BfsSt) (m : State × String) (k x : State)
    (h : (bfs_scan s st m).parent k = some x) :
    (k = m.1 ∧ x = s) ∨ st.parent k = some x := by
  unfold bfs_scan at h
  simp only at h
  by_cases hmem : m.1 ∈ st.visited
  · rw [if_pos hmem] at h
    exact Or.inr h
  · rw [if_neg hmem] at h
    simp only at h
    by_cases hk : k = m.1
    · rw [if_pos hk] at h
      injection h with h2
      exact Or.inl ⟨hk, h2.symm⟩
    · rw [if_neg hk] at h
      exact Or.inr h

/-- One `bfs_scan` step keeps all recorded parents non-goal, provided the
expanded node failed its goal check. -/
theorem bfs_scan_pngoal (inst : Instance) (s : State) (st : BfsSt) (m : State × String)
    (hs : is_goal s inst = false) (h : ParentsNotGoal inst st.parent) :
    ParentsNotGoal inst (bfs_scan s st m).parent := by
  intro k x hk
  rcases bfs_scan_parent s st m k x hk with ⟨_, rfl⟩ | h'
  · exact hs
  · exact h k x h'

/-- The whole successor fold keeps all recorded parents non-goal. -/
theorem bfs_foldl_pngoal (inst : Instance) (s : State) (hs : is_goal s inst = false) :
    ∀ (ms : List (State × String)) (st : BfsSt), ParentsNotGoal inst st.parent →
      ParentsNotGoal inst ((ms.foldl (bfs_scan s) st)).parent := by
  intro ms
  induction ms with
  | nil => intro st h; exact h
  | cons m rest ih =>
    intro st h
    exact ih (bfs_scan s st m) (bfs_scan_pngoal inst s st m hs h)

/-- A non-empty path returned by the BFS loop ends at a goal state and passes
through no goal state earlier, provided all recorded parents are non-goal. -/
theorem bfsF_goal_end (inst : Instance) :
    ∀ (fuel : Nat) (st : BfsSt) (p : List (State × Option String)) (m : Metrics)
      (stf : BfsSt),
      bfsF inst fuel st = some (p, m, stf) → ParentsNotGoal inst st.parent → p ≠ [] →
      p.getLast?.map (fun x => is_goal x.1 inst) = some true ∧
      ∀ x ∈ p.dropLast, is_goal x.1 inst = false := by
  intro fuel
  induction fuel with
  | zero =>
    intro st p m stf h
    simp [bfsF] at h
  | succ fuel ih =>
    intro st p m stf h hpng hne
    unfold bfsF at h
    cases hq : st.q with
    | nil =>
      rw [hq] at h
      simp only at h
      injection h with h2
      have hp : p = [] := by
        have := congrArg Prod.fst h2
        exact this.symm
      exact absurd hp hne
    | cons s rest =>
      rw [hq] at h
      simp only at h
      by_cases hg : is_goal s inst = true
      · rw [if_pos hg] at h
        injection h with h2
        have hp := congrArg Prod.fst h2
        simp only at hp
        subst hp
        constructor
        · rw [chain_last_of_goal]
          simp [hg]
        · intro x hx
          have hch := chain_chain'
            ({ st with q := rest, nodes_expanded := st.nodes_expanded + 1 }).parent
            ({ st with q := rest, nodes_expanded := st.nodes_expanded + 1 }).action
            (({ st with q := rest, nodes_expanded := st.nodes_expanded + 1 }).visited.card + 1)
            (some s) [] (by simp) (fun hcon => absurd rfl hcon)
          rcases chain'_dropLast_rel _ _ hch x hx with ⟨y, hy⟩
          exact hpng y.1 x.1 hy
      · rw [if_neg hg] at h
        refine ih _ p m stf h ?_ hne
        exact bfs_foldl_pngoal inst s (by simpa using hg) (next_states s inst)
          { st with q := rest, nodes_expanded := st.nodes_expanded + 1 } hpng

/-- The successor loop of `dls` keeps all recorded parents non-goal, provided
the expanded node failed its goal check and recursion preserves the property. -/
theorem dls_loop_pngoal (inst : Instance) (node : State)
    (recur : State → Finset State → IdsSt → IdsSt × Option State × Bool)
    (Hrec : ∀ ns ps' st', ParentsNotGoal inst st'.parent →
      ParentsNotGoal inst ((recur ns ps' st').1).parent)
    (hnode : is_goal node inst = false) :
    ∀ (moves : List (State × String)) (ps : Finset State) (st : IdsSt) (cflag : Bool),
      ParentsNotGoal inst st.parent →
      ParentsNotGoal inst ((dls_loop node recur moves ps st cflag).1).parent := by
  intro moves
  induction moves with
  | nil => intro ps st cflag h; exact h
  | cons m rest ih =>
    obtain ⟨ns, desc⟩ := m
    intro ps st cflag h
    unfold dls_loop
    simp only
    by_cases hmem : ns ∈ ps
    · rw [if_pos hmem]
      exact ih ps _ cflag h
    · rw [if_neg hmem]
      have h2 : ParentsNotGoal inst
          (fun k => if k = ns then some node else
            ({ st with total_gen := st.total_gen + 1 }).parent k) := by
        intro k x hk
        simp only at hk
        by_cases hkns : k = ns
        · rw [if_pos hkns] at hk
          injection hk with h3
          exact h3 ▸ hnode
        · rw [if_neg hkns] at hk
          exact h k x hk
      cases hr : (recur ns (insert ns ps)
          { total_gen := st.total_gen + 1, total_exp := st.total_exp
            max_frontier := st.max_frontier
            parent := fun k => if k = ns then some node else st.parent k
            action := fun k => if k = ns then some desc else st.action k }).2.1 with
      | some g =>
        simp only [hr]
        exact Hrec ns (insert ns ps) _ h2
      | none =>
        simp only [hr]
        exact ih ps _ _ (Hrec ns (insert ns ps) _ h2)

/-- The depth-limited search keeps all recorded parents non-goal. -/
theorem dlsF_pngoal (inst : Instance) :
    ∀ (fuel : Nat) (node : State) (depth limit : Nat) (ps : Finset State) (st : IdsSt),
      ParentsNotGoal inst st.parent →
      ParentsNotGoal inst ((dlsF inst fuel node depth limit ps st).1).parent := by
  intro fuel
  induction fuel with
  | zero => intro node depth limit ps st h; exact h
  | succ fuel ih =>
    intro node depth limit ps st h
    unfold dlsF
    simp only
    by_cases hg : is_goal node inst = true
    · rw [if_pos hg]
      exact h
    · rw [if_neg hg]
      by_cases hd : (depth == limit) = true
      · rw [if_pos hd]
        exact h
      · rw [if_neg hd]
        exact dls_loop_pngoal inst node _
          (fun ns ps' st' h' => ih ns (depth + 1) limit ps' st' h')
          (by simpa using hg) (next_states node inst) ps _ false h

/-- A goal reported by the successor loop of `dls` satisfies `is_goal`,
provided recursion only reports goals. -/
theorem dls_loop_goal (inst : Instance) (node : State)
    (recur : State → Finset State → IdsSt → IdsSt × Option State × Bool)
    (Hrec : ∀ ns ps' st' g, (recur ns ps' st').2.1 = some g → is_goal g inst = true) :
    ∀ (moves : List (State × String)) (ps : Finset State) (st : IdsSt) (cflag : Bool)
      (g : State),
      (dls_loop node recur moves ps st cflag).2.1 = some g → is_goal g inst = true := by
  intro moves
  induction moves with
  | nil =>
    intro ps st cflag g h
    simp [dls_loop] at h
  | cons m rest ih =>
    obtain ⟨ns, desc⟩ := m
    intro ps st cflag g h
    unfold dls_loop at h
    simp only at h
    by_cases hmem : ns ∈ ps
    · rw [if_pos hmem] at h
      exact ih ps _ cflag g h
    · rw [if_neg hmem] at h
      cases hr : (recur ns (insert ns ps)
          { total_gen := st.total_gen + 1, total_exp := st.total_exp
            max_frontier := st.max_frontier
            parent := fun k => if k = ns then some node else st.parent k
            action := fun k => if k = ns then some desc else st.action k }).2.1 with
      | some g' =>
        rw [hr] at h
        simp only at h
        injection h with h2
        exact h2 ▸ Hrec ns (insert ns ps) _ g' hr
      | none =>
        rw [hr] at h
        simp only at h
        exact ih ps _ _ g h

/-- A goal reported by the depth-limited search satisfies `is_goal`. -/
theorem dlsF_goal (inst : Instance) :
    ∀ (fuel : Nat) (node : State) (depth limit : Nat) (ps : Finset State) (st : IdsSt)
      (g : State),
      (dlsF inst fuel node depth limit ps st).2.1 = some g → is_goal g inst = true := by
  intro fuel
  induction fuel with
  | zero =>
    intro node depth limit ps st g h
    simp [dlsF] at h
  | succ fuel ih =>
    intro node depth limit ps st g h
    unfold dlsF at h
    simp only at h
    by_cases hg : is_goal node inst = true
    · rw [if_pos hg] at h
      injection h with h2
      exact h2 ▸ hg
    · rw [if_neg hg] at h
      by_cases hd : (depth == limit) = true
      · rw [if_pos hd] at h
        simp at h
      · rw [if_neg hd] at h
        exact dls_loop_goal inst node _
          (fun ns ps' st' g' h' => ih ns (depth + 1) limit ps' st' g' h')
          (next_states node inst) ps _ false g h

/-- A non-empty path returned by the IDS outer loop ends at a goal state and
passes through no goal state earlier. -/
theorem ids_go_goal_end (inst : Instance) :
    ∀ (limits : List Nat) (st : IdsSt) (p : List (State × Option String))
      (m : IdsMetrics),
      ids_go inst limits st = (p, m) → p ≠ [] →
      p.getLast?.map (fun x => is_goal x.1 inst) = some true ∧
      ∀ x ∈ p.dropLast, is_goal x.1 inst = false := by
  intro limits
  induction limits with
  | nil =>
    intro st p m h hne
    injection h with h1 _
    exact absurd h1.symm hne
  | cons limit rest ih =>
    intro st p m h hne
    unfold ids_go at h
    simp only at h
    cases hr : (dlsF inst (limit + 1) (make_start_state inst) 0 limit
        {make_start_state inst}
        { st with parent := fun _ => none, action := fun _ => none }).2.1 with
    | some g =>
      rw [hr] at h
      simp only at h
      injection h with h1 _
      subst h1
      have hpng : ParentsNotGoal inst
          ((dlsF inst (limit + 1) (make_start_state inst) 0 limit
            {make_start_state inst}
            { st with parent := fun _ => none, action := fun _ => none }).1).parent := by
        refine dlsF_pngoal inst (limit + 1) (make_start_state inst) 0 limit
          {make_start_state inst} _ ?_
        intro k x hk
        cases hk
      constructor
      · rw [chain_last_of_goal]
        simp [dlsF_goal inst (limit + 1) (make_start_state inst) 0 limit
          {make_start_state inst} _ g hr]
      · intro x hx
        have hch := chain_chain'
          ((dlsF inst (limit + 1) (make_start_state inst) 0 limit
            {make_start_state inst}
            { st with parent := fun _ => none, action := fun _ => none }).1).parent
          ((dlsF inst (limit + 1) (make_start_state inst) 0 limit
            {make_start_state inst}
            { st with parent := fun _ => none, action := fun _ => none }).1).action
          (limit + 2) (some g) []
          (by simp) (fun hcon => absurd rfl hcon)
        rcases chain'_dropLast_rel _ _ hch x hx with ⟨y, hy⟩
        exact hpng y.1 x.1 hy
    | none =>
      rw [hr] at h
      simp only at h
      by_cases hc : (dlsF inst (limit + 1) (make_start_state inst) 0 limit
          {make_start_state inst}
          { st with parent := fun _ => none, action := fun _ => none }).2.2 = true
      · rw [if_pos hc] at h
        exact ih _ p m h hne
      · rw [if_neg hc] at h
        injection h with h1 _
        exact absurd h1.symm hne

/-- Membership in the bounding state space, unfolded. -/
theorem mem_stateSpace (inst : Instance) (s : State) :
    s ∈ stateSpace inst ↔
      s.1 ⊆ (make_start_state inst).1 ∪ inst.items.toFinset ∧
      s.2 ∈ insert inst.start_farmer ({"L", "R"} : Finset String) := by
  unfold stateSpace
  rw [Finset.mem_product, Finset.mem_powerset]

/-- The start state lies in the bounding state space. -/
theorem start_mem_stateSpace (inst : Instance) :
    make_start_state inst ∈ stateSpace inst := by
  rw [mem_stateSpace]
  exact ⟨Finset.subset_union_left, Finset.mem_insert_self _ _⟩

/-- Shape of the states `mk_move` can build. -/
theorem mk_move_cases (inst : Instance) (left : Finset String) (fl : Bool)
    (cargo : Option String) (p : State × String)
    (h : mk_move inst left fl cargo = some p) :
    ((cargo = none ∧ p.1.1 = left) ∨
      (∃ c, cargo = some c ∧ (p.1.1 = left.erase c ∨ p.1.1 = insert c left))) ∧
    (p.1.2 = "R" ∨ p.1.2 = "L") := by
  cases fl <;> cases cargo <;> simp [mk_move] at h <;> rcases h with ⟨hv, rfl⟩
  · exact ⟨Or.inl ⟨rfl, rfl⟩, Or.inr rfl⟩
  · rename_i c
    exact ⟨Or.inr ⟨c, rfl, Or.inr rfl⟩, Or.inr rfl⟩
  · exact ⟨Or.inl ⟨rfl, rfl⟩, Or.inl rfl⟩
  · rename_i c
    exact ⟨Or.inr ⟨c, rfl, Or.inl rfl⟩, Or.inl rfl⟩

/-- Successor states stay inside the bounding state space. -/
theorem next_states_mem_space (inst : Instance) (s : State)
    (hs : s ∈ stateSpace inst) (p : State × String) (hp : p ∈ next_states s inst) :
    p.1 ∈ stateSpace inst := by
  rw [mem_stateSpace] at hs ⊢
  unfold next_states at hp
  simp only [List.mem_filterMap] at hp
  rcases hp with ⟨cargo, hc, hm⟩
  rcases mk_move_cases inst s.1 (s.2 == "L") cargo p hm with ⟨hleft, hfarm⟩
  constructor
  · rcases hleft with ⟨_, hL⟩ | ⟨c, hcg, hL⟩
    · rw [hL]; exact hs.1
    · have hcb : c ∈ (make_start_state inst).1 ∪ inst.items.toFinset := by
        subst hcg
        rcases List.mem_cons.mp hc with h0 | h1
        · cases h0
        · rcases List.mem_map.mp h1 with ⟨c', hc', hcc⟩
          injection hcc with hcc
          subst hcc
          have hcbank := (mem_sortedBank _ c').mp hc'
          by_cases hfl : (s.2 == "L") = true
          · rw [if_pos hfl] at hcbank
            exact hs.1 hcbank
          · rw [if_neg hfl] at hcbank
            exact Finset.mem_union_right _ (Finset.mem_sdiff.mp hcbank).1
      rcases hL with hL | hL
      · rw [hL]
        exact fun a ha => hs.1 (Finset.erase_subset _ _ ha)
      · rw [hL]
        intro a ha
        rcases Finset.mem_insert.mp ha with rfl | ha'
        · exact hcb
        · exact hs.1 ha'
  · rcases hfarm with hf | hf <;> rw [hf] <;>
      exact Finset.mem_insert_of_mem (by decide)

/-- Successor states extend reachability by one step. -/
theorem next_states_reach (inst : Instance) (s : State) (hs : Reachable inst s)
    (p : State × String) (hp : p ∈ next_states s inst) : Reachable inst p.1 := by
  rcases hs with ⟨n, hn⟩
  exact ⟨n + 1, ReachableIn.step hn (show (p.1, p.2) ∈ _ from hp)⟩

/-- Projection of `bfs_scan` on the visited set. -/
theorem bfs_scan_visited (s : State) (st : BfsSt) (m : State × String) :
    (bfs_scan s st m).visited =
      if m.1 ∈ st.visited then st.visited else insert m.1 st.visited := by
  unfold bfs_scan
  by_cases h : m.1 ∈ st.visited
  · rw [if_pos h, if_pos h]
  · rw [if_neg h, if_neg h]

/-- Projection of `bfs_scan` on the queue. -/
theorem bfs_scan_q (s : State) (st : BfsSt) (m : State × String) :
    (bfs_scan s st m).q =
      if m.1 ∈ st.visited then st.q else st.q ++ [m.1] := by
  unfold bfs_scan
  by_cases h : m.1 ∈ st.visited
  · rw [if_pos h, if_pos h]
  · rw [if_neg h, if_neg h]

/-- Projection of `bfs_scan` on the parent map. -/
theorem bfs_scan_parent_eq (s : State) (st : BfsSt) (m : State × String) :
    (bfs_scan s st m).parent =
      if m.1 ∈ st.visited then st.parent
      else fun k => if k = m.1 then some s else st.parent k := by
  unfold bfs_scan
  by_cases h : m.1 ∈ st.visited
  · rw [if_pos h, if_pos h]
  · rw [if_neg h, if_neg h]

/-- Projection of `bfs_scan` on the action map. -/
theorem bfs_scan_action_eq (s : State) (st : BfsSt) (m : State × String) :
    (bfs_scan s st m).action =
      if m.1 ∈ st.visited then st.action
      else fun k => if k = m.1 then some m.2 else st.action k := by
  unfold bfs_scan
  by_cases h : m.1 ∈ st.visited
  · rw [if_pos h, if_pos h]
  · rw [if_neg h, if_neg h]

/-- The successor fold preserves the termination invariant, does not increase
the termination measure, and only grows the visited set. -/
theorem bfs_fold_T (inst : Instance) (s : State) :
    ∀ (ms : List (State × String)) (st : BfsSt),
      (∀ v ∈ st.q, v ∈ st.visited) → st.visited ⊆ stateSpace inst →
      (∀ m ∈ ms, m.1 ∈ stateSpace inst) →
      (∀ v ∈ (ms.foldl (bfs_scan s) st).q, v ∈ (ms.foldl (bfs_scan s) st).visited) ∧
      (ms.foldl (bfs_scan s) st).visited ⊆ stateSpace inst ∧
      bfs_measure inst (ms.foldl (bfs_scan s) st) ≤ bfs_measure inst st ∧
      st.visited ⊆ (ms.foldl (bfs_scan s) st).visited := by
  intro ms
  induction ms with
  | nil =>
    intro st h1 h2 _
    exact ⟨h1, h2, le_refl _, Finset.Subset.refl _⟩
  | cons m rest ih =>
    intro st h1 h2 hm
    have hone : (∀ v ∈ (bfs_scan s st m).q, v ∈ (bfs_scan s st m).visited) ∧
        (bfs_scan s st m).visited ⊆ stateSpace inst ∧
        bfs_measure inst (bfs_scan s st m) ≤ bfs_measure inst st ∧
        st.visited ⊆ (bfs_scan s st m).visited := by
      rw [bfs_scan_visited, bfs_scan_q]
      by_cases h : m.1 ∈ st.visited
      · rw [if_pos h, if_pos h]
        refine ⟨h1, h2, ?_, Finset.Subset.refl _⟩
        unfold bfs_measure
        rw [bfs_scan_visited, bfs_scan_q, if_pos h, if_pos h]
      · rw [if_neg h, if_neg h]
        have hm1 : m.1 ∈ stateSpace inst := hm m (List.mem_cons_self _ _)
        refine ⟨?_, ?_, ?_, Finset.subset_insert _ _⟩
        · intro v hv
          rcases List.mem_append.mp hv with hv' | hv'
          · exact Finset.mem_insert_of_mem (h1 v hv')
          · rcases List.mem_singleton.mp hv' with rfl
            exact Finset.mem_insert_self _ _
        · exact Finset.insert_subset hm1 h2
        · unfold bfs_measure
          rw [bfs_scan_visited, bfs_scan_q, if_neg h, if_neg h]
          have hcard : (insert m.1 st.visited).card = st.visited.card + 1 :=
            Finset.card_insert_of_not_mem h
          have hlt : st.visited.card < (stateSpace inst).card :=
            Finset.card_lt_card (Finset.ssubset_iff_of_subset h2 |>.mpr ⟨m.1, hm1, h⟩)
          rw [hcard]
          simp only [List.length_append, List.length_singleton]
          omega
    rcases ih (bfs_scan s st m)
        hone.1 hone.2.1 (fun m' hm' => hm m' (List.mem_cons_of_mem _ hm')) with
      ⟨g1, g2, g3, g4⟩
    exact ⟨g1, g2, le_trans g3 hone.2.2.1, Finset.Subset.trans hone.2.2.2 g4⟩

/-- The successor fold keeps every visited state reachable. -/
theorem bfs_fold_reach (inst : Instance) (s : State) (hs : Reachable inst s) :
    ∀ (ms : List (State × String)) (st : BfsSt),
      (∀ m ∈ ms, m ∈ next_states s inst) →
      (∀ v ∈ st.visited, Reachable inst v) →
      ∀ v ∈ (ms.foldl (bfs_scan s) st).visited, Reachable inst v := by
  intro ms
  induction ms with
  | nil => intro st _ h; exact h
  | cons m rest ih =>
    intro st hms h
    refine ih (bfs_scan s st m) (fun m' hm' => hms m' (List.mem_cons_of_mem _ hm')) ?_
    intro v hv
    rw [bfs_scan_visited] at hv
    by_cases hmem : m.1 ∈ st.visited
    · rw [if_pos hmem] at hv
      exact h v hv
    · rw [if_neg hmem] at hv
      rcases Finset.mem_insert.mp hv with rfl | hv'
      · exact next_states_reach inst s hs m (hms m (List.mem_cons_self _ _))
      · exact h v hv'

/-- When no reachable state is a goal, the BFS loop runs to queue exhaustion
and returns the empty path with the sentinel metrics. -/
theorem bfsF_nogoal (inst : Instance)
    (hng : ∀ g, Reachable inst g → is_goal g inst = false) :
    ∀ (fuel : Nat) (st : BfsSt),
      (∀ v ∈ st.q, v ∈ st.visited) → st.visited ⊆ stateSpace inst →
      (∀ v ∈ st.visited, Reachable inst v) → bfs_measure inst st < fuel →
      ∃ stf, bfsF inst fuel st = some ([], bfs_fail_metrics stf, stf) := by
  intro fuel
  induction fuel with
  | zero => intro st _ _ _ h; omega
  | succ fuel ih =>
    intro st h1 h2 h3 hfuel
    unfold bfsF
    cases hq : st.q with
    | nil => exact ⟨st, rfl⟩
    | cons s rest =>
      simp only
      have hsv : s ∈ st.visited := h1 s (by rw [hq]; exact List.mem_cons_self _ _)
      have hsr : Reachable inst s := h3 s hsv
      have hgs : is_goal s inst = false := hng s hsr
      rw [if_neg (by rw [hgs]; exact Bool.false_ne_true)]
      set st1 : BfsSt := { st with q := rest, nodes_expanded := st.nodes_expanded + 1 }
        with hst1
      have h1' : ∀ v ∈ st1.q, v ∈ st1.visited := by
        intro v hv
        exact h1 v (by rw [hq]; exact List.mem_cons_of_mem _ hv)
      have hsp : s ∈ stateSpace inst := h2 hsv
      have hT := bfs_fold_T inst s (next_states s inst) st1 h1' h2
        (fun m hm => next_states_mem_space inst s hsp m hm)
      have hμ1 : bfs_measure inst st1 + 1 = bfs_measure inst st := by
        unfold bfs_measure
        rw [hst1]
        simp only
        rw [hq]
        simp [List.length_cons]
        omega
      refine ih ((next_states s inst).foldl (bfs_scan s) st1) hT.1 hT.2.1 ?_ ?_
      · exact bfs_fold_reach inst s hsr (next_states s inst) st1 (fun m hm => hm) h3
      · omega

/-- When no reachable state is a goal, the successor loop of `dls` reports no
goal (given that recursion reports none from reachable nodes). -/
theorem dls_loop_nogoal (inst : Instance) (node : State)
    (recur : State → Finset State → IdsSt → IdsSt × Option State × Bool)
    (Hrec : ∀ ns ps' st', Reachable inst ns → (recur ns ps' st').2.1 = none)
    (hnr : Reachable inst node) :
    ∀ (moves : List (State × String)) (ps : Finset State) (st : IdsSt) (cflag : Bool),
      (∀ m ∈ moves, m ∈ next_states node inst) →
      (dls_loop node recur moves ps st cflag).2.1 = none := by
  intro moves
  induction moves with
  | nil => intro ps st cflag _; rfl
  | cons m rest ih =>
    obtain ⟨ns, desc⟩ := m
    intro ps st cflag hms
    unfold dls_loop
    simp only
    by_cases hmem : ns ∈ ps
    · rw [if_pos hmem]
      exact ih ps _ cflag (fun m' hm' => hms m' (List.mem_cons_of_mem _ hm'))
    · rw [if_neg hmem]
      have hnsr : Reachable inst ns :=
        next_states_reach inst node hnr (ns, desc) (hms _ (List.mem_cons_self _ _))
      have hr := Hrec ns (insert ns ps)
        { total_gen := st.total_gen + 1, total_exp := st.total_exp
          max_frontier := st.max_frontier
          parent := fun k => if k = ns then some node else st.parent k
          action := fun k => if k = ns then some desc else st.action k } hnsr
      simp only [hr]
      exact ih ps _ _ (fun m' hm' => hms m' (List.mem_cons_of_mem _ hm'))

/-- When no reachable state is a goal, the depth-limited search reports no
goal from any reachable node. -/
theorem dlsF_nogoal (inst : Instance)
    (hng : ∀ g, Reachable inst g → is_goal g inst = false) :
    ∀ (fuel : Nat) (node : State) (depth limit : Nat) (ps : Finset State) (st : IdsSt),
      Reachable inst node → (dlsF inst fuel node depth limit ps st).2.1 = none := by
  intro fuel
  induction fuel with
  | zero => intro node depth limit ps st _; rfl
  | succ fuel ih =>
    intro node depth limit ps st hnr
    unfold dlsF
    simp only
    rw [if_neg (by rw [hng node hnr]; exact Bool.false_ne_true)]
    by_cases hd : (depth == limit) = true
    · rw [if_pos hd]
    · rw [if_neg hd]
      exact dls_loop_nogoal inst node _
        (fun ns ps' st' hr => ih ns (depth + 1) limit ps' st' hr)
        hnr (next_states node inst) ps _ false (fun m hm => hm)

/-- When no reachable state is a goal, the IDS outer loop falls through to
the failure result with sentinel metrics. -/
theorem ids_go_nogoal (inst : Instance)
    (hng : ∀ g, Reachable inst g → is_goal g inst = false) :
    ∀ (limits : List Nat) (st : IdsSt),
      ∃ stf, ids_go inst limits st = ([], ids_fail_metrics stf) := by
  intro limits
  induction limits with
  | nil => intro st; exact ⟨st, rfl⟩
  | cons limit rest ih =>
    intro st
    unfold ids_go
    simp only
    have hnone := dlsF_nogoal inst hng (limit + 1) (make_start_state inst) 0 limit
      {make_start_state inst}
      { st with parent := fun _ => none, action := fun _ => none }
      ⟨0, ReachableIn.start⟩
    simp only [hnone]
    by_cases hc : (dlsF inst (limit + 1) (make_start_state inst) 0 limit
        {make_start_state inst}
        { st with parent := fun _ => none, action := fun _ => none }).2.2 = true
    · rw [if_pos hc]
      exact ih _
    · rw [if_neg hc]
      exact ⟨_, rfl⟩

/-- In a `Chain'`-linked list, every element except the first has some
element related to it. -/
theorem chain'_tail_rel {α : Type} (R : α → α → Prop) :
    ∀ l : List α, List.Chain' R l → ∀ x ∈ l.tail, ∃ y, R y x := by
  intro l
  induction l with
  | nil => intro _ x hx; simp at hx
  | cons a l ih =>
    intro hc x hx
    simp only [List.tail_cons] at hx
    cases l with
    | nil => simp at hx
    | cons b l' =>
      rcases List.chain'_cons.mp hc with ⟨hr, hc'⟩
      rcases List.mem_cons.mp hx with rfl | hx'
      · exact ⟨a, hr⟩
      · rcases ih hc' x (by simpa using hx') with ⟨y, hy⟩
        exact ⟨y, hy⟩

/-- `Chain'` transfer along an implication that may use membership. -/
theorem chain'_imp_mem {α : Type} {R S : α → α → Prop} :
    ∀ l : List α, List.Chain' R l →
      (∀ a b, a ∈ l → b ∈ l → R a b → S a b) → List.Chain' S l := by
  intro l
  induction l with
  | nil => intro _ _; exact List.chain'_nil
  | cons a l ih =>
    intro hc himp
    cases l with
    | nil => simp
    | cons b l' =>
      rcases List.chain'_cons.mp hc with ⟨hr, hc'⟩
      refine List.chain'_cons.mpr ⟨?_, ?_⟩
      · exact himp a b (by simp) (by simp) hr
      · exact ih hc' (fun x y hx hy hr' =>
          himp x y (List.mem_cons_of_mem _ hx) (List.mem_cons_of_mem _ hy) hr')

/-- The successor fold keeps the queue inside the visited set. -/
theorem bfs_fold_qvis (s : State) :
    ∀ (ms : List (State × String)) (st : BfsSt),
      (∀ v ∈ st.q, v ∈ st.visited) →
      ∀ v ∈ (ms.foldl (bfs_scan s) st).q, v ∈ (ms.foldl (bfs_scan s) st).visited := by
  intro ms
  induction ms with
  | nil => intro st h; exact h
  | cons m rest ih =>
    intro st h
    refine ih (bfs_scan s st m) ?_
    intro v hv
    rw [bfs_scan_q] at hv
    rw [bfs_scan_visited]
    by_cases hmem : m.1 ∈ st.visited
    · rw [if_pos hmem] at hv
      rw [if_pos hmem]
      exact h v hv
    · rw [if_neg hmem] at hv
      rw [if_neg hmem]
      rcases List.mem_append.mp hv with hv' | hv'
      · exact Finset.mem_insert_of_mem (h v hv')
      · rcases List.mem_singleton.mp hv' with rfl
        exact Finset.mem_insert_self _ _

/-- One `bfs_scan` step preserves the reconstruction invariant: edges are
real, the start keeps empty backpointers, and every visited state has a
rooted in-visited parent chain shorter than the visited count. -/
theorem bfs_scan_reco (inst : Instance) (s : State) (st : BfsSt) (m : State × String)
    (hsv : s ∈ st.visited) (hm : m ∈ next_states s inst)
    (hE : EdgesOk inst st.parent st.action)
    (hA : st.action (make_start_state inst) = none)
    (hS : make_start_state inst ∈ st.visited)
    (hP : ∀ k ∈ st.visited, ∃ δ, δ < st.visited.card ∧
      PChainIn st.parent inst st.visited k δ) :
    EdgesOk inst (bfs_scan s st m).parent (bfs_scan s st m).action ∧
    (bfs_scan s st m).action (make_start_state inst) = none ∧
    make_start_state inst ∈ (bfs_scan s st m).visited ∧
    ∀ k ∈ (bfs_scan s st m).visited, ∃ δ, δ < (bfs_scan s st m).visited.card ∧
      PChainIn (bfs_scan s st m).parent inst (bfs_scan s st m).visited k δ := by
  rw [bfs_scan_parent_eq, bfs_scan_action_eq, bfs_scan_visited]
  by_cases h : m.1 ∈ st.visited
  · rw [if_pos h, if_pos h, if_pos h]
    exact ⟨hE, hA, hS, hP⟩
  · rw [if_neg h, if_neg h, if_neg h]
    have hms : m.1 ≠ make_start_state inst := fun hc => h (hc ▸ hS)
    have hagree : ∀ k ∈ st.visited,
        (fun k => if k = m.1 then some s else st.parent k) k = st.parent k := by
      intro k hk
      have : k ≠ m.1 := fun hc => h (hc ▸ hk)
      simp [this]
    refine ⟨?_, ?_, Finset.mem_insert_of_mem hS, ?_⟩
    · intro k x hk
      simp only at hk
      by_cases hkm : k = m.1
      · rw [if_pos hkm] at hk
        injection hk with hk2
        subst hk2
        refine ⟨m.2, ?_, ?_⟩
        · simp [hkm]
        · rw [hkm]
          exact hm
      · rw [if_neg hkm] at hk
        rcases hE k x hk with ⟨d, hd1, hd2⟩
        exact ⟨d, by simp [hkm, hd1], hd2⟩
    · show (if make_start_state inst = m.1 then some m.2
          else st.action (make_start_state inst)) = none
      rw [if_neg (fun hc => hms hc.symm)]
      exact hA
    · intro k hk
      have hcard : (insert m.1 st.visited).card = st.visited.card + 1 :=
        Finset.card_insert_of_not_mem h
      rcases Finset.mem_insert.mp hk with rfl | hk'
      · rcases hP s hsv with ⟨δs, hδs, hchs⟩
        refine ⟨δs + 1, by omega, ?_⟩
        refine ⟨Finset.mem_insert_self _ _, s, by simp, ?_⟩
        exact PChainIn_mono _ inst (Finset.subset_insert _ _) s δs
          (PChainIn_frame inst hagree s δs hchs)
      · rcases hP k hk' with ⟨δ, hδ, hch⟩
        refine ⟨δ, by omega, ?_⟩
        exact PChainIn_mono _ inst (Finset.subset_insert _ _) k δ
          (PChainIn_frame inst hagree k δ hch)

/-- The successor fold preserves the reconstruction invariant. -/
theorem bfs_fold_reco (inst : Instance) (s : State) :
    ∀ (ms : List (State × String)) (st : BfsSt),
      s ∈ st.visited → (∀ m ∈ ms, m ∈ next_states s inst) →
      EdgesOk inst st.parent st.action →
      st.action (make_start_state inst) = none →
      make_start_state inst ∈ st.visited →
      (∀ k ∈ st.visited, ∃ δ, δ < st.visited.card ∧
        PChainIn st.parent inst st.visited k δ) →
      EdgesOk inst (ms.foldl (bfs_scan s) st).parent (ms.foldl (bfs_scan s) st).action ∧
      (ms.foldl (bfs_scan s) st).action (make_start_state inst) = none ∧
      make_start_state inst ∈ (ms.foldl (bfs_scan s) st).visited ∧
      ∀ k ∈ (ms.foldl (bfs_scan s) st).visited,
        ∃ δ, δ < (ms.foldl (bfs_scan s) st).visited.card ∧
          PChainIn (ms.foldl (bfs_scan s) st).parent inst
            (ms.foldl (bfs_scan s) st).visited k δ := by
  intro ms
  induction ms with
  | nil => intro st _ _ h1 h2 h3 h4; exact ⟨h1, h2, h3, h4⟩
  | cons m rest ih =>
    intro st hsv hms h1 h2 h3 h4
    have hstep := bfs_scan_reco inst s st m hsv (hms m (List.mem_cons_self _ _)) h1 h2 h3 h4
    have hsv' : s ∈ (bfs_scan s st m).visited := by
      rw [bfs_scan_visited]
      by_cases h : m.1 ∈ st.visited
      · rw [if_pos h]; exact hsv
      · rw [if_neg h]; exact Finset.mem_insert_of_mem hsv
    exact ih (bfs_scan s st m) hsv' (fun m' hm' => hms m' (List.mem_cons_of_mem _ hm'))
      hstep.1 hstep.2.1 hstep.2.2.1 hstep.2.2.2

/-- A non-empty path returned by the BFS loop starts at the start state with
an absent label and is linked by labelled `next_states` edges. -/
theorem bfsF_path_legal (inst : Instance) :
    ∀ (fuel : Nat) (st : BfsSt) (p : List (State × Option String)) (m : Metrics)
      (stf : BfsSt),
      bfsF inst fuel st = some (p, m, stf) →
      (∀ v ∈ st.q, v ∈ st.visited) →
      EdgesOk inst st.parent st.action →
      st.action (make_start_state inst) = none →
      make_start_state inst ∈ st.visited →
      (∀ k ∈ st.visited, ∃ δ, δ < st.visited.card ∧
        PChainIn st.parent inst st.visited k δ) →
      p ≠ [] →
      p.head? = some (make_start_state inst, none) ∧
      List.Chain' (fun a b => ∃ d, b.2 = some d ∧ (b.1, d) ∈ next_states a.1 inst) p := by
  intro fuel
  induction fuel with
  | zero =>
    intro st p m stf h
    simp [bfsF] at h
  | succ fuel ih =>
    intro st p m stf h hq hE hA hS hP hne
    unfold bfsF at h
    cases hqe : st.q with
    | nil =>
      rw [hqe] at h
      simp only at h
      injection h with h2
      exact absurd (congrArg Prod.fst h2).symm hne
    | cons s rest =>
      rw [hqe] at h
      simp only at h
      by_cases hg : is_goal s inst = true
      · rw [if_pos hg] at h
        injection h with h2
        have hp := congrArg Prod.fst h2
        simp only at hp
        subst hp
        have hsv : s ∈ st.visited := hq s (by rw [hqe]; exact List.mem_cons_self _ _)
        rcases hP s hsv with ⟨δ, hδ, hch⟩
        have hpc : PChain st.parent inst s δ :=
          PChainIn_toPChain st.parent inst st.visited s δ hch
        rcases chain_of_pchain st.parent st.action inst δ s hpc
            (st.visited.card + 1) (by omega) [] with ⟨out, hout, hhead, hlen⟩
        constructor
        · rw [hout, List.append_nil, hhead, hA]
        · have hch' := chain_chain' st.parent st.action (st.visited.card + 1)
            (some s) [] (by simp) (fun hcon => absurd rfl hcon)
          have hsnd := chain_snd st.parent st.action (st.visited.card + 1)
            (some s) [] (by intro x hx; simp at hx)
          refine chain'_imp_mem _ hch' ?_
          intro a b _ hb hr
          rcases hE b.1 a.1 hr with ⟨d, hd1, hd2⟩
          exact ⟨d, by rw [hsnd b hb, hd1], hd2⟩
      · rw [if_neg hg] at h
        have hsv : s ∈ st.visited := hq s (by rw [hqe]; exact List.mem_cons_self _ _)
        have hq' : ∀ v ∈ rest, v ∈ st.visited := by
          intro v hv
          exact hq v (by rw [hqe]; exact List.mem_cons_of_mem _ hv)
        have hfold := bfs_fold_reco inst s (next_states s inst)
          { st with q := rest, nodes_expanded := st.nodes_expanded + 1 }
          hsv (fun m' hm' => hm') hE hA hS hP
        refine ih _ p m stf h ?_ hfold.1 hfold.2.1 hfold.2.2.1 hfold.2.2.2 hne
        exact bfs_fold_qvis s (next_states s inst)
          { st with q := rest, nodes_expanded := st.nodes_expanded + 1 } hq'

/-- The successor loop of `dls` never touches backpointers of states on the
active path (they are protected by the `path_set` skip), given that recursion
does not either. -/
theorem dls_loop_frame (node : State)
    (recur : State → Finset State → IdsSt → IdsSt × Option State × Bool)
    (Hrec : ∀ ns ps' st', ∀ k ∈ ps',
      ((recur ns ps' st').1).parent k = st'.parent k ∧
      ((recur ns ps' st').1).action k = st'.action k) :
    ∀ (moves : List (State × String)) (ps : Finset State) (st : IdsSt) (cflag : Bool),
      ∀ k ∈ ps,
        ((dls_loop node recur moves ps st cflag).1).parent k = st.parent k ∧
        ((dls_loop node recur moves ps st cflag).1).action k = st.action k := by
  intro moves
  induction moves with
  | nil => intro ps st cflag k _; exact ⟨rfl, rfl⟩
  | cons m rest ih =>
    obtain ⟨ns, desc⟩ := m
    intro ps st cflag k hk
    unfold dls_loop
    simp only
    by_cases hmem : ns ∈ ps
    · rw [if_pos hmem]
      exact ih ps _ cflag k hk
    · rw [if_neg hmem]
      have hkns : k ≠ ns := fun hc => hmem (hc ▸ hk)
      have hst2 :
          (fun j => if j = ns then some node else st.parent j) k = st.parent k ∧
          (fun j => if j = ns then some desc else st.action j) k = st.action k := by
        constructor <;> simp [hkns]
      cases hr : (recur ns (insert ns ps)
          { total_gen := st.total_gen + 1, total_exp := st.total_exp
            max_frontier := st.max_frontier
            parent := fun j => if j = ns then some node else st.parent j
            action := fun j => if j = ns then some desc else st.action j }).2.1 with
      | some g =>
        simp only [hr]
        have := Hrec ns (insert ns ps)
          { total_gen := st.total_gen + 1, total_exp := st.total_exp
            max_frontier := st.max_frontier
            parent := fun j => if j = ns then some node else st.parent j
            action := fun j => if j = ns then some desc else st.action j }
          k (Finset.mem_insert_of_mem hk)
        exact ⟨this.1.trans hst2.1, this.2.trans hst2.2⟩
      | none =>
        simp only [hr]
        have hmid := Hrec ns (insert ns ps)
          { total_gen := st.total_gen + 1, total_exp := st.total_exp
            max_frontier := st.max_frontier
            parent := fun j => if j = ns then some node else st.parent j
            action := fun j => if j = ns then some desc else st.action j }
          k (Finset.mem_insert_of_mem hk)
        have hrest := ih ps ((recur ns (insert ns ps)
          { total_gen := st.total_gen + 1, total_exp := st.total_exp
            max_frontier := st.max_frontier
            parent := fun j => if j = ns then some node else st.parent j
            action := fun j => if j = ns then some desc else st.action j }).1)
          (cflag || (recur ns (insert ns ps)
          { total_gen := st.total_gen + 1, total_exp := st.total_exp
            max_frontier := st.max_frontier
            parent := fun j => if j = ns then some node else st.parent j
            action := fun j => if j = ns then some desc else st.action j }).2.2) k hk
        exact ⟨hrest.1.trans (hmid.1.trans hst2.1),
          hrest.2.trans (hmid.2.trans hst2.2)⟩

/-- The depth-limited search never touches backpointers of states on the
active path. -/
theorem dlsF_frame (inst : Instance) :
    ∀ (fuel : Nat) (node : State) (depth limit : Nat) (ps : Finset State) (st : IdsSt),
      ∀ k ∈ ps,
        ((dlsF inst fuel node depth limit ps st).1).parent k = st.parent k ∧
        ((dlsF inst fuel node depth limit ps st).1).action k = st.action k := by
  intro fuel
  induction fuel with
  | zero => intro node depth limit ps st k _; exact ⟨rfl, rfl⟩
  | succ fuel ih =>
    intro node depth limit ps st k hk
    unfold dlsF
    simp only
    by_cases hg : is_goal node inst = true
    · rw [if_pos hg]
      exact ⟨rfl, rfl⟩
    · rw [if_neg hg]
      by_cases hd : (depth == limit) = true
      · rw [if_pos hd]
        exact ⟨rfl, rfl⟩
      · rw [if_neg hd]
        exact dls_loop_frame node _
          (fun ns ps' st' j hj => ih ns (depth + 1) limit ps' st' j hj)
          (next_states node inst) ps _ false k hk

/-- The successor loop of `dls` keeps all recorded backpointers genuine
labelled edges. -/
theorem dls_loop_edges (inst : Instance) (node : State)
    (recur : State → Finset State → IdsSt → IdsSt × Option State × Bool)
    (Hrec : ∀ ns ps' st', EdgesOk inst st'.parent st'.action →
      EdgesOk inst ((recur ns ps' st').1).parent ((recur ns ps' st').1).action) :
    ∀ (moves : List (State × String)) (ps : Finset State) (st : IdsSt) (cflag : Bool),
      (∀ m ∈ moves, m ∈ next_states node inst) →
      EdgesOk inst st.parent st.action →
      EdgesOk inst ((dls_loop node recur moves ps st cflag).1).parent
        ((dls_loop node recur moves ps st cflag).1).action := by
  intro moves
  induction moves with
  | nil => intro ps st cflag _ h; exact h
  | cons m rest ih =>
    obtain ⟨ns, desc⟩ := m
    intro ps st cflag hms h
    unfold dls_loop
    simp only
    by_cases hmem : ns ∈ ps
    · rw [if_pos hmem]
      exact ih ps _ cflag (fun m' hm' => hms m' (List.mem_cons_of_mem _ hm')) h
    · rw [if_neg hmem]
      have h2 : EdgesOk inst
          (fun j => if j = ns then some node else st.parent j)
          (fun j => if j = ns then some desc else st.action j) := by
        intro k x hk
        simp only at hk
        by_cases hkns : k = ns
        · rw [if_pos hkns] at hk
          injection hk with hk2
          subst hk2
          exact ⟨desc, by simp [hkns], by rw [hkns]; exact hms _ (List.mem_cons_self _ _)⟩
        · rw [if_neg hkns] at hk
          rcases h k x hk with ⟨d, hd1, hd2⟩
          exact ⟨d, by simp [hkns, hd1], hd2⟩
      cases hr : (recur ns (insert ns ps)
          { total_gen := st.total_gen + 1, total_exp := st.total_exp
            max_frontier := st.max_frontier
            parent := fun j => if j = ns then some node else st.parent j
            action := fun j => if j = ns then some desc else st.action j }).2.1 with
      | some g =>
        simp only [hr]
        exact Hrec ns (insert ns ps) _ h2
      | none =>
        simp only [hr]
        exact ih ps _ _ (fun m' hm' => hms m' (List.mem_cons_of_mem _ hm'))
          (Hrec ns (insert ns ps) _ h2)

/-- The depth-limited search keeps all recorded backpointers genuine labelled
edges. -/
theorem dlsF_edges (inst : Instance) :
    ∀ (fuel : Nat) (node : State) (depth limit : Nat) (ps : Finset State) (st : IdsSt),
      EdgesOk inst st.parent st.action →
      EdgesOk inst ((dlsF inst fuel node depth limit ps st).1).parent
        ((dlsF inst fuel node depth limit ps st).1).action := by
  intro fuel
  induction fuel with
  | zero => intro node depth limit ps st h; exact h
  | succ fuel ih =>
    intro node depth limit ps st h
    unfold dlsF
    simp only
    by_cases hg : is_goal node inst = true
    · rw [if_pos hg]
      exact h
    · rw [if_neg hg]
      by_cases hd : (depth == limit) = true
      · rw [if_pos hd]
        exact h
      · rw [if_neg hd]
        exact dls_loop_edges inst node _
          (fun ns ps' st' h' => ih ns (depth + 1) limit ps' st' h')
          (next_states node inst) ps _ false (fun m hm => hm) h

/-- When the successor loop of `dls` reports a goal, the final parent map
carries a rooted chain to that goal of length at most the depth limit —
despite the shared, overwritten maps — because the active path is protected
by `path_set`. -/
theorem dls_loop_goal_pchain (inst : Instance) (node : State) (depth limit : Nat)
    (recur : State → Finset State → IdsSt → IdsSt × Option State × Bool)
    (Hrec : ∀ ns ps' st' g, (recur ns ps' st').2.1 = some g →
      PChainIn st'.parent inst ps' ns (depth + 1) →
      ∃ δ, δ ≤ limit ∧ PChain ((recur ns ps' st').1).parent inst g δ)
    (Hframe : ∀ ns ps' st', ∀ k ∈ ps',
      ((recur ns ps' st').1).parent k = st'.parent k) :
    ∀ (moves : List (State × String)) (ps : Finset State) (st : IdsSt) (cflag : Bool)
      (g : State),
      (dls_loop node recur moves ps st cflag).2.1 = some g →
      PChainIn st.parent inst ps node depth →
      ∃ δ, δ ≤ limit ∧
        PChain ((dls_loop node recur moves ps st cflag).1).parent inst g δ := by
  intro moves
  induction moves with
  | nil =>
    intro ps st cflag g h
    simp [dls_loop] at h
  | cons m rest ih =>
    obtain ⟨ns, desc⟩ := m
    intro ps st cflag g h hch
    unfold dls_loop at h
    simp only at h
    by_cases hmem : ns ∈ ps
    · rw [if_pos hmem] at h
      have hgoal : dls_loop node recur ((ns, desc) :: rest) ps st cflag =
          dls_loop node recur rest ps { st with total_gen := st.total_gen + 1 } cflag := by
        conv_lhs => unfold dls_loop
        simp only
        rw [if_pos hmem]
      rw [hgoal]
      exact ih ps _ cflag g h hch
    · rw [if_neg hmem] at h
      have hagree : ∀ k ∈ ps,
          (fun j => if j = ns then some node else st.parent j) k = st.parent k := by
        intro k hk
        have : k ≠ ns := fun hc => hmem (hc ▸ hk)
        simp [this]
      have hch2 : PChainIn
          (fun j => if j = ns then some node else st.parent j) inst ps node depth :=
        PChainIn_frame inst hagree node depth hch
      have hchild : PChainIn
          (fun j => if j = ns then some node else st.parent j) inst
          (insert ns ps) ns (depth + 1) := by
        refine ⟨Finset.mem_insert_self _ _, node, by simp, ?_⟩
        exact PChainIn_mono _ inst (Finset.subset_insert _ _) node depth hch2
      cases hr : (recur ns (insert ns ps)
          { total_gen := st.total_gen + 1, total_exp := st.total_exp
            max_frontier := st.max_frontier
            parent := fun j => if j = ns then some node else st.parent j
            action := fun j => if j = ns then some desc else st.action j }).2.1 with
      | some g' =>
        rw [hr] at h
        simp only at h
        injection h with h2
        subst h2
        have hgoal : dls_loop node recur ((ns, desc) :: rest) ps st cflag =
            ((recur ns (insert ns ps)
              { total_gen := st.total_gen + 1, total_exp := st.total_exp
                max_frontier := st.max_frontier
                parent := fun j => if j = ns then some node else st.parent j
                action := fun j => if j = ns then some desc else st.action j }).1,
              some g', false) := by
          conv_lhs => unfold dls_loop
          simp only
          rw [if_neg hmem]
          simp only [hr]
        rw [hgoal]
        exact Hrec ns (insert ns ps) _ g' hr hchild
      | none =>
        rw [hr] at h
        simp only at h
        have hgoal : dls_loop node recur ((ns, desc) :: rest) ps st cflag =
            dls_loop node recur rest ps
              ((recur ns (insert ns ps)
                { total_gen := st.total_gen + 1, total_exp := st.total_exp
                  max_frontier := st.max_frontier
                  parent := fun j => if j = ns then some node else st.parent j
                  action := fun j => if j = ns then some desc else st.action j }).1)
              (cflag || (recur ns (insert ns ps)
                { total_gen := st.total_gen + 1, total_exp := st.total_exp
                  max_frontier := st.max_frontier
                  parent := fun j => if j = ns then some node else st.parent j
                  action := fun j => if j = ns then some desc else st.action j }).2.2) := by
          conv_lhs => unfold dls_loop
          simp only
          rw [if_neg hmem]
          simp only [hr]
        rw [hgoal]
        refine ih ps _ _ g h ?_
        have hagree2 : ∀ k ∈ ps,
            ((recur ns (insert ns ps)
              { total_gen := st.total_gen + 1, total_exp := st.total_exp
                max_frontier := st.max_frontier
                parent := fun j => if j = ns then some node else st.parent j
                action := fun j => if j = ns then some desc else st.action j }).1).parent k =
              st.parent k := by
          intro k hk
          rw [Hframe ns (insert ns ps) _ k (Finset.mem_insert_of_mem hk)]
          exact hagree k hk
        exact PChainIn_frame inst hagree2 node depth hch

/-- When the depth-limited search reports a goal, the final parent map
carries a rooted chain to that goal of length at most the limit. -/
theorem dlsF_goal_pchain (inst : Instance) :
    ∀ (fuel : Nat) (node : State) (depth limit : Nat) (ps : Finset State) (st : IdsSt)
      (g : State),
      (dlsF inst fuel node depth limit ps st).2.1 = some g →
      depth ≤ limit →
      PChainIn st.parent inst ps node depth →
      ∃ δ, δ ≤ limit ∧
        PChain ((dlsF inst fuel node depth limit ps st).1).parent inst g δ := by
  intro fuel
  induction fuel with
  | zero =>
    intro node depth limit ps st g h
    simp [dlsF] at h
  | succ fuel ih =>
    intro node depth limit ps st g h hdl hch
    unfold dlsF at h ⊢
    simp only at h ⊢
    by_cases hg : is_goal node inst = true
    · rw [if_pos hg] at h ⊢
      injection h with h2
      subst h2
      exact ⟨depth, hdl, PChainIn_toPChain _ inst ps node depth hch⟩
    · rw [if_neg hg] at h ⊢
      by_cases hd : (depth == limit) = true
      · rw [if_pos hd] at h
        simp at h
      · rw [if_neg hd] at h ⊢
        have hlt : depth < limit :=
          lt_of_le_of_ne hdl (by simpa using hd)
        exact dls_loop_goal_pchain inst node depth limit _
          (fun ns ps' st' g' h' hch' =>
            ih ns (depth + 1) limit ps' st' g' h' (by omega) hch')
          (fun ns ps' st' k hk => (dlsF_frame inst fuel ns (depth + 1) limit ps' st' k hk).1)
          (next_states node inst) ps _ false g h hch

/-- A non-empty path returned by the IDS outer loop starts at the start state
with an absent label and is linked by labelled `next_states` edges. -/
theorem ids_go_path_legal (inst : Instance) :
    ∀ (limits : List Nat) (st : IdsSt) (p : List (State × Option String))
      (m : IdsMetrics),
      ids_go inst limits st = (p, m) → p ≠ [] →
      p.head? = some (make_start_state inst, none) ∧
      List.Chain' (fun a b => ∃ d, b.2 = some d ∧ (b.1, d) ∈ next_states a.1 inst) p := by
  intro limits
  induction limits with
  | nil =>
    intro st p m h hne
    injection h with h1 _
    exact absurd h1.symm hne
  | cons limit rest ih =>
    intro st p m h hne
    unfold ids_go at h
    simp only at h
    cases hr : (dlsF inst (limit + 1) (make_start_state inst) 0 limit
        {make_start_state inst}
        { st with parent := fun _ => none, action := fun _ => none }).2.1 with
    | some g =>
      rw [hr] at h
      simp only at h
      injection h with h1 _
      subst h1
      have hch0 : PChainIn
          (fun _ => (none : Option State)) inst ({make_start_state inst} : Finset State)
          (make_start_state inst) 0 :=
        ⟨rfl, rfl, Finset.mem_singleton_self _⟩
      rcases dlsF_goal_pchain inst (limit + 1) (make_start_state inst) 0 limit
          {make_start_state inst}
          { st with parent := fun _ => none, action := fun _ => none } g hr
          (Nat.zero_le _) hch0 with ⟨δ, hδle, hpc⟩
      have hastart : ((dlsF inst (limit + 1) (make_start_state inst) 0 limit
          {make_start_state inst}
          { st with parent := fun _ => none, action := fun _ => none }).1).action
            (make_start_state inst) = none :=
        (dlsF_frame inst (limit + 1) (make_start_state inst) 0 limit
          {make_start_state inst} _ (make_start_state inst)
          (Finset.mem_singleton_self _)).2
      rcases chain_of_pchain _ _ inst δ g hpc (limit + 2) (by omega) [] with
        ⟨out, hout, hhead, hlen⟩
      constructor
      · rw [hout, List.append_nil, hhead, hastart]
      · have hch' := chain_chain'
          ((dlsF inst (limit + 1) (make_start_state inst) 0 limit
            {make_start_state inst}
            { st with parent := fun _ => none, action := fun _ => none }).1).parent
          ((dlsF inst (limit + 1) (make_start_state inst) 0 limit
            {make_start_state inst}
            { st with parent := fun _ => none, action := fun _ => none }).1).action
          (limit + 2) (some g) [] (by simp) (fun hcon => absurd rfl hcon)
        have hsnd := chain_snd
          ((dlsF inst (limit + 1) (make_start_state inst) 0 limit
            {make_start_state inst}
            { st with parent := fun _ => none, action := fun _ => none }).1).parent
          ((dlsF inst (limit + 1) (make_start_state inst) 0 limit
            {make_start_state inst}
            { st with parent := fun _ => none, action := fun _ => none }).1).action
          (limit + 2) (some g) [] (by intro x hx; simp at hx)
        have hE : EdgesOk inst
            ((dlsF inst (limit + 1) (make_start_state inst) 0 limit
              {make_start_state inst}
              { st with parent := fun _ => none, action := fun _ => none }).1).parent
            ((dlsF inst (limit + 1) (make_start_state inst) 0 limit
              {make_start_state inst}
              { st with parent := fun _ => none, action := fun _ => none }).1).action := by
          refine dlsF_edges inst (limit + 1) (make_start_state inst) 0 limit
            {make_start_state inst} _ ?_
          intro k x hk
          cases hk
        refine chain'_imp_mem _ hch' ?_
        intro a b _ hb hr'
        rcases hE b.1 a.1 hr' with ⟨d, hd1, hd2⟩
        exact ⟨d, by rw [hsnd b hb, hd1], hd2⟩
    | none =>
      rw [hr] at h
      simp only at h
      by_cases hc : (dlsF inst (limit + 1) (make_start_state inst) 0 limit
          {make_start_state inst}
          { st with parent := fun _ => none, action := fun _ => none }).2.2 = true
      · rw [if_pos hc] at h
        exact ih _ p m h hne
      · rw [if_neg hc] at h
        injection h with h1 _
        exact absurd h1.symm hne

/-- A rooted parent chain whose edges are genuine is a legal move sequence,
so its endpoint is reachable in exactly the chain length. -/
theorem pchain_reachable (inst : Instance) (parent : State → Option State)
    (action : State → Option String) (hE : EdgesOk inst parent action) :
    ∀ (δ : Nat) (s : State), PChain parent inst s δ → ReachableIn inst δ s := by
  intro δ
  induction δ with
  | zero =>
    intro s h
    rw [h.1]
    exact ReachableIn.start
  | succ δ ih =>
    intro s h
    rcases h with ⟨x, hx, hch⟩
    rcases hE s x hx with ⟨d, _, hd2⟩
    exact ReachableIn.step (ih x hch) hd2

/-- Prefixing a start-to-`s` walk onto an avoiding walk from `s`. -/
theorem reachable_concat_walk (inst : Instance) :
    ∀ (n : Nat) (s : State), ReachableIn inst n s →
      ∀ m, WalkAvoid inst ∅ s m →
        WalkAvoid inst ∅ (make_start_state inst) (n + m) := by
  intro n s hn
  induction hn with
  | start =>
    intro m hm
    rw [Nat.zero_add]
    exact hm
  | step hprev hedge ihp =>
    rename_i n' s' t d
    intro m hm
    have hw : WalkAvoid inst ∅ s' (m + 1) :=
      WalkAvoid.step hedge (Finset.not_mem_empty t) hm
    have := ihp (m + 1) hw
    have harith : n' + (m + 1) = n' + 1 + m := by omega
    rw [harith] at this
    exact this

/-- An avoiding walk either also avoids one more state, or yields a strictly
shorter walk from that state. -/
theorem walk_through (inst : Instance) {A : Finset State} :
    ∀ {s : State} {n : Nat}, WalkAvoid inst A s n → ∀ x : State,
      WalkAvoid inst (insert x A) s n ∨ ∃ m, m < n ∧ WalkAvoid inst A x m := by
  intro s n h
  induction h with
  | here hg => intro x; exact Or.inl (WalkAvoid.here hg)
  | step hedge hmem htail ih =>
    rename_i s' t d n'
    intro x
    rcases ih x with hleft | ⟨m, hm, hx⟩
    · by_cases hx : t = x
      · exact Or.inr ⟨n', Nat.lt_succ_self _, hx ▸ htail⟩
      · exact Or.inl (WalkAvoid.step hedge
          (by rw [Finset.mem_insert]; push_neg; exact ⟨hx, hmem⟩) hleft)
    · exact Or.inr ⟨m, Nat.lt_succ_of_lt hm, hx⟩

/-- From any walk one can extract a walk that also avoids its own origin. -/
theorem walk_self_avoid (inst : Instance) (A : Finset State) (s : State) :
    ∀ n, WalkAvoid inst A s n →
      ∃ m, m ≤ n ∧ WalkAvoid inst (insert s A) s m := by
  intro n
  induction n using Nat.strong_induction_on with
  | _ n ih =>
    intro h
    rcases walk_through inst h s with hleft | ⟨m, hm, hx⟩
    · exact ⟨n, le_refl _, hleft⟩
    · rcases ih m hm hx with ⟨m', hm', hw⟩
      exact ⟨m', le_trans hm' (Nat.le_of_lt hm), hw⟩

/-- The goal/cutoff output of the successor loop does not depend on the
threaded bookkeeping state. -/
theorem dls_loop_out_irrel (node : State)
    (recur : State → Finset State → IdsSt → IdsSt × Option State × Bool)
    (Hrec : ∀ ns ps' st st', (recur ns ps' st).2 = (recur ns ps' st').2) :
    ∀ (moves : List (State × String)) (ps : Finset State) (st st' : IdsSt)
      (cflag : Bool),
      (dls_loop node recur moves ps st cflag).2 =
        (dls_loop node recur moves ps st' cflag).2 := by
  intro moves
  induction moves with
  | nil => intro ps st st' cflag; rfl
  | cons m rest ih =>
    obtain ⟨ns, desc⟩ := m
    intro ps st st' cflag
    unfold dls_loop
    simp only
    by_cases hmem : ns ∈ ps
    · rw [if_pos hmem, if_pos hmem]
      exact ih ps _ _ cflag
    · rw [if_neg hmem, if_neg hmem]
      have hout := Hrec ns (insert ns ps)
        { total_gen := st.total_gen + 1, total_exp := st.total_exp
          max_frontier := st.max_frontier
          parent := fun j => if j = ns then some node else st.parent j
          action := fun j => if j = ns then some desc else st.action j }
        { total_gen := st'.total_gen + 1, total_exp := st'.total_exp
          max_frontier := st'.max_frontier
          parent := fun j => if j = ns then some node else st'.parent j
          action := fun j => if j = ns then some desc else st'.action j }
      have h1 := congrArg Prod.fst hout
      have h2 := congrArg Prod.snd hout
      simp only at h1 h2
      cases hg : (recur ns (insert ns ps)
          { total_gen := st.total_gen + 1, total_exp := st.total_exp
            max_frontier := st.max_frontier
            parent := fun j => if j = ns then some node else st.parent j
            action := fun j => if j = ns then some desc else st.action j }).2.1 with
      | some g =>
        rw [hg] at h1
        simp only [hg, ← h1]
      | none =>
        rw [hg] at h1
        simp only [hg, ← h1]
        rw [← h2]
        exact ih ps _ _ _

/-- The goal/cutoff output of the depth-limited search does not depend on the
threaded bookkeeping state. -/
theorem dlsF_out_irrel (inst : Instance) :
    ∀ (fuel : Nat) (node : State) (depth limit : Nat) (ps : Finset State)
      (st st' : IdsSt),
      (dlsF inst fuel node depth limit ps st).2 =
        (dlsF inst fuel node depth limit ps st').2 := by
  intro fuel
  induction fuel with
  | zero => intro node depth limit ps st st'; rfl
  | succ fuel ih =>
    intro node depth limit ps st st'
    unfold dlsF
    simp only
    by_cases hg : is_goal node inst = true
    · rw [if_pos hg, if_pos hg]
    · rw [if_neg hg, if_neg hg]
      by_cases hd : (depth == limit) = true
      · rw [if_pos hd, if_pos hd]
      · rw [if_neg hd, if_neg hd]
        exact dls_loop_out_irrel node _
          (fun ns ps' s1 s2 => ih ns (depth + 1) limit ps' s1 s2)
          (next_states node inst) ps _ _ false

/-- If the successor loop reports no goal, then recursion reported no goal on
every non-skipped successor (for any bookkeeping state, by irrelevance). -/
theorem dls_loop_fail (node : State)
    (recur : State → Finset State → IdsSt → IdsSt × Option State × Bool)
    (Hrec : ∀ ns ps' st st', (recur ns ps' st).2 = (recur ns ps' st').2) :
    ∀ (moves : List (State × String)) (ps : Finset State) (st : IdsSt)
      (cflag : Bool),
      (dls_loop node recur moves ps st cflag).2.1 = none →
      ∀ ns desc, (ns, desc) ∈ moves → ns ∉ ps →
        ∀ stX, (recur ns (insert ns ps) stX).2.1 = none := by
  intro moves
  induction moves with
  | nil =>
    intro ps st cflag _ ns desc hmem
    simp at hmem
  | cons m rest ih =>
    obtain ⟨ns0, desc0⟩ := m
    intro ps st cflag h ns desc hmem hns stX
    unfold dls_loop at h
    simp only at h
    by_cases hmem0 : ns0 ∈ ps
    · rw [if_pos hmem0] at h
      rcases List.mem_cons.mp hmem with heq | hrest
      · injection heq with he1 he2
        exact absurd (he1 ▸ hmem0) hns
      · exact ih ps _ cflag h ns desc hrest hns stX
    · rw [if_neg hmem0] at h
      cases hg : (recur ns0 (insert ns0 ps)
          { total_gen := st.total_gen + 1, total_exp := st.total_exp
            max_frontier := st.max_frontier
            parent := fun j => if j = ns0 then some node else st.parent j
            action := fun j => if j = ns0 then some desc0 else st.action j }).2.1 with
      | some g =>
        rw [hg] at h
        simp at h
      | none =>
        rw [hg] at h
        simp only at h
        rcases List.mem_cons.mp hmem with heq | hrest
        · injection heq with he1 he2
          subst he1
          have hirr := Hrec ns (insert ns ps)
            { total_gen := st.total_gen + 1, total_exp := st.total_exp
              max_frontier := st.max_frontier
              parent := fun j => if j = ns then some node else st.parent j
              action := fun j => if j = ns then some desc0 else st.action j } stX
          have h1 := congrArg Prod.fst hirr
          simp only at h1
          rw [← h1, hg]
        · exact ih ps _ _ h ns desc hrest hns stX

/-- Completeness of the depth-limited search: when some goal is reachable
from the current node within the remaining depth budget by a walk avoiding
the active path, the search reports a goal. -/
theorem dlsF_complete (inst : Instance) :
    ∀ (n : Nat) (fuel : Nat) (node : State) (depth limit : Nat) (ps : Finset State)
      (st : IdsSt),
      WalkAvoid inst ps node n → depth + n ≤ limit → limit - depth < fuel →
      (dlsF inst fuel node depth limit ps st).2.1 ≠ none := by
  intro n
  induction n using Nat.strong_induction_on with
  | _ n ihn =>
    intro fuel node depth limit ps st hw hdn hfuel hcontra
    match fuel, hfuel with
    | fuel + 1, hfuel =>
      unfold dlsF at hcontra
      simp only at hcontra
      by_cases hg : is_goal node inst = true
      · rw [if_pos hg] at hcontra
        cases hcontra
      · rw [if_neg hg] at hcontra
        cases hw with
        | here hgoal => exact absurd hgoal hg
        | step hedge hmem htail =>
          rename_i t d m
          have hdlt : depth < limit := by omega
          rw [if_neg (by simpa using Nat.ne_of_lt hdlt)] at hcontra
          have hfail := dls_loop_fail node _
            (fun ns ps' s1 s2 => dlsF_out_irrel inst fuel ns (depth + 1) limit ps' s1 s2)
            (next_states node inst) ps _ false hcontra t d hedge hmem
          rcases walk_through inst htail t with hleft | ⟨m', hm', hw'⟩
          · exact ihn m (by omega) fuel t (depth + 1) limit (insert t ps) st
              hleft (by omega) (by omega) (hfail st)
          · have hw2 : WalkAvoid inst ps node (m' + 1) :=
              WalkAvoid.step hedge hmem hw'
            exact ihn (m' + 1) (by omega) (fuel + 1) node depth limit ps st
              hw2 (by omega) (by omega)
              (by unfold dlsF
                  simp only
                  rw [if_neg hg, if_neg (by simpa using Nat.ne_of_lt hdlt)]
                  exact hcontra)

/-- The IDS outer loop over an ascending run of limits returns, on success,
exactly the minimal goal distance: the first limit that can succeed is the
minimal walk length (completeness), and the reconstructed path cannot be
shorter (soundness). -/
theorem ids_go_min (inst : Instance) :
    ∀ (len lo : Nat) (st : IdsSt) (p : List (State × Option String)) (m : IdsMetrics),
      ids_go inst (List.range' lo len) st = (p, m) → p ≠ [] →
      (∀ n g, ReachableIn inst n g → is_goal g inst = true → lo ≤ n) →
      ∃ d : Nat, m.solution_depth = (d : Int) ∧
        (∃ g, ReachableIn inst d g ∧ is_goal g inst = true) ∧
        (∀ n g, ReachableIn inst n g → is_goal g inst = true → d ≤ n) := by
  intro len
  induction len with
  | zero =>
    intro lo st p m h hne _
    injection h with h1 _
    exact absurd h1.symm hne
  | succ len ih =>
    intro lo st p m h hne hlow
    rw [List.range'_succ lo len 1] at h
    unfold ids_go at h
    simp only at h
    cases hr : (dlsF inst (lo + 1) (make_start_state inst) 0 lo
        {make_start_state inst}
        { st with parent := fun _ => none, action := fun _ => none }).2.1 with
    | some g =>
      rw [hr] at h
      simp only at h
      injection h with h1 h2
      have hch0 : PChainIn
          (fun _ => (none : Option State)) inst ({make_start_state inst} : Finset State)
          (make_start_state inst) 0 :=
        ⟨rfl, rfl, Finset.mem_singleton_self _⟩
      rcases dlsF_goal_pchain inst (lo + 1) (make_start_state inst) 0 lo
          {make_start_state inst}
          { st with parent := fun _ => none, action := fun _ => none } g hr
          (Nat.zero_le _) hch0 with ⟨δ, hδle, hpc⟩
      have hE : EdgesOk inst
          ((dlsF inst (lo + 1) (make_start_state inst) 0 lo
            {make_start_state inst}
            { st with parent := fun _ => none, action := fun _ => none }).1).parent
          ((dlsF inst (lo + 1) (make_start_state inst) 0 lo
            {make_start_state inst}
            { st with parent := fun _ => none, action := fun _ => none }).1).action := by
        refine dlsF_edges inst (lo + 1) (make_start_state inst) 0 lo
          {make_start_state inst} _ ?_
        intro k x hk
        cases hk
      have hreach : ReachableIn inst δ g := pchain_reachable inst _ _ hE δ g hpc
      have hgoal : is_goal g inst = true :=
        dlsF_goal inst (lo + 1) (make_start_state inst) 0 lo
          {make_start_state inst} _ g hr
      rcases chain_of_pchain
          ((dlsF inst (lo + 1) (make_start_state inst) 0 lo
            {make_start_state inst}
            { st with parent := fun _ => none, action := fun _ => none }).1).parent
          ((dlsF inst (lo + 1) (make_start_state inst) 0 lo
            {make_start_state inst}
            { st with parent := fun _ => none, action := fun _ => none }).1).action
          inst δ g hpc (lo + 2) (by omega) [] with ⟨out, hout, _, hlen⟩
      refine ⟨δ, ?_, ⟨g, hreach, hgoal⟩, ?_⟩
      · rw [← h2]
        simp only
        rw [hout, List.append_nil, hlen]
        push_cast
        ring
      · intro n g' hn hg'
        exact le_trans hδle (hlow n g' hn hg')
    | none =>
      rw [hr] at h
      simp only at h
      by_cases hc : (dlsF inst (lo + 1) (make_start_state inst) 0 lo
          {make_start_state inst}
          { st with parent := fun _ => none, action := fun _ => none }).2.2 = true
      · rw [if_pos hc] at h
        refine ih (lo + 1) _ p m h hne ?_
        intro n g hn hg
        have hlo := hlow n g hn hg
        rcases Nat.lt_or_ge n (lo + 1) with hlt | hge
        · exfalso
          have hnl : n = lo := by omega
          subst hnl
          have hw0 : WalkAvoid inst ∅ (make_start_state inst) n := by
            have := reachable_concat_walk inst n g hn 0 (WalkAvoid.here hg)
            simpa using this
          rcases walk_self_avoid inst ∅ (make_start_state inst) n hw0 with
            ⟨mw, hmw, hwS⟩
          rw [show (insert (make_start_state inst) ∅ : Finset State) =
            {make_start_state inst} from rfl] at hwS
          exact dlsF_complete inst mw (n + 1) (make_start_state inst) 0 n
            {make_start_state inst}
            { st with parent := fun _ => none, action := fun _ => none }
            hwS (by omega) (by omega) hr
        · exact hge
      · rw [if_neg hc] at h
        injection h with h1 _
        exact absurd h1.symm hne

/-- Inversion: only the start is reachable in zero steps. -/
theorem reachableIn_zero (inst : Instance) (u : State)
    (h : ReachableIn inst 0 u) : u = make_start_state inst := by
  cases h
  rfl

/-- Inversion: a state reachable in `n + 1` steps has a predecessor
reachable in `n` steps. -/
theorem reachableIn_succ (inst : Instance) (n : Nat) (u : State)
    (h : ReachableIn inst (n + 1) u) :
    ∃ v d, ReachableIn inst n v ∧ (u, d) ∈ next_states v inst := by
  cases h with
  | step hp hm => exact ⟨_, _, hp, hm⟩

/-- Normalizing the window at a pop: the popped head has a well-defined
recorded depth `L`, and the remaining queue again splits into an `L` layer
and an `L + 1` layer. -/
theorem bfs_window_pop (inst : Instance) (st : BfsSt) (s : State) (rest : List State)
    (hq : st.q = s :: rest) (hW : ∃ L, BfsWindowAt inst L st) :
    ∃ L, (∀ δ, PChainIn st.parent inst st.visited s δ → δ = L) ∧
      ∃ qa qb, rest = qa ++ qb ∧
        (∀ v ∈ qa, ∀ δ, PChainIn st.parent inst st.visited v δ → δ = L) ∧
        (∀ v ∈ qb, ∀ δ, PChainIn st.parent inst st.visited v δ → δ = L + 1) := by
  rcases hW with ⟨L, qa, qb, hsplit, ha, hb⟩
  rw [hq] at hsplit
  cases qa with
  | nil =>
    simp only [List.nil_append] at hsplit
    cases qb with
    | nil => cases hsplit
    | cons b qb' =>
      injection hsplit with h1 h2
      subst h1
      refine ⟨L + 1, fun δ h => hb s (List.mem_cons_self _ _) δ h, qb', [], ?_, ?_, ?_⟩
      · rw [h2, List.append_nil]
      · intro v hv δ h
        exact hb v (List.mem_cons_of_mem _ hv) δ h
      · intro v hv
        simp at hv
  | cons a qa' =>
    injection hsplit with h1 h2
    subst h1
    refine ⟨L, fun δ h => ha s (List.mem_cons_self _ _) δ h, qa', qb, h2.symm ▸ rfl, ?_, hb⟩
    intro v hv δ h
    exact ha v (List.mem_cons_of_mem _ hv) δ h

/-- Frontier completeness: with the invariants at a stable configuration,
every state reachable in fewer than `L` steps has been visited and expanded. -/
theorem bfs_frontier_complete (inst : Instance) (st : BfsSt) (L : Nat)
    (hstart : make_start_state inst ∈ st.visited)
    (hPM : BfsChainMin inst st)
    (hclosed : ∀ k ∈ st.visited, k ∉ st.q → ∀ p ∈ next_states k inst, p.1 ∈ st.visited)
    (hqwin : ∀ v ∈ st.q, ∀ δ, PChainIn st.parent inst st.visited v δ →
      δ = L ∨ δ = L + 1) :
    ∀ (n : Nat) (u : State), ReachableIn inst n u → n < L →
      u ∈ st.visited ∧ u ∉ st.q := by
  intro n
  induction n with
  | zero =>
    intro u hu hL
    cases hu with
    | start =>
      refine ⟨hstart, ?_⟩
      intro hin
      rcases hPM (make_start_state inst) hstart with ⟨δ, _, hch, hmin⟩
      have hδ0 : δ = 0 := Nat.le_zero.mp (hmin 0 ReachableIn.start)
      rcases hqwin _ hin δ hch with h | h <;> omega
  | succ n ih =>
    intro u hu hL
    cases hu with
    | step hprev hmem =>
      rename_i v d
      rcases ih v hprev (by omega) with ⟨hvv, hvq⟩
      have huv : u ∈ st.visited := hclosed v hvv hvq (u, d) hmem
      refine ⟨huv, ?_⟩
      intro hin
      rcases hPM u huv with ⟨δ, _, hch, hmin⟩
      have hδ : δ ≤ n + 1 := hmin (n + 1) (ReachableIn.step hprev hmem)
      rcases hqwin _ hin δ hch with h | h <;> omega

/-- One `bfs_scan` step preserves the optimality invariants: every newly
visited state receives a minimal-length chain (`L + 1`, one more than the
expanding state's layer), and the layer window shifts by appending to the
`L + 1` layer. -/
theorem bfs_scan_opt (inst : Instance) (s : State) (L : Nat) (st : BfsSt)
    (m : State × String)
    (hm : m ∈ next_states s inst)
    (hsvis : s ∈ st.visited)
    (hsL : PChainIn st.parent inst st.visited s L)
    (hminS : ∀ n, ReachableIn inst n s → L ≤ n)
    (hqvis : ∀ v ∈ st.q, v ∈ st.visited)
    (hqnd : st.q.Nodup)
    (hstart : make_start_state inst ∈ st.visited)
    (hPM : BfsChainMin inst st)
    (hCX : BfsClosedExcept inst s st)
    (hENG : BfsExpandedNoGoal inst st)
    (hO4 : ∀ n u, ReachableIn inst n u → n < L → u ∈ st.visited ∧ u ∉ st.q)
    (hWin : BfsWindowAt inst L st) :
    s ∈ (bfs_scan s st m).visited ∧
    PChainIn (bfs_scan s st m).parent inst (bfs_scan s st m).visited s L ∧
    (∀ v ∈ (bfs_scan s st m).q, v ∈ (bfs_scan s st m).visited) ∧
    (bfs_scan s st m).q.Nodup ∧
    make_start_state inst ∈ (bfs_scan s st m).visited ∧
    BfsChainMin inst (bfs_scan s st m) ∧
    BfsClosedExcept inst s (bfs_scan s st m) ∧
    BfsExpandedNoGoal inst (bfs_scan s st m) ∧
    (∀ n u, ReachableIn inst n u → n < L →
      u ∈ (bfs_scan s st m).visited ∧ u ∉ (bfs_scan s st m).q) ∧
    BfsWindowAt inst L (bfs_scan s st m) ∧
    m.1 ∈ (bfs_scan s st m).visited ∧
    st.visited ⊆ (bfs_scan s st m).visited := by
  have hq' := bfs_scan_q s st m
  have hv' := bfs_scan_visited s st m
  have hp' := bfs_scan_parent_eq s st m
  by_cases h : m.1 ∈ st.visited
  · rw [if_pos h] at hq' hv' hp'
    refine ⟨?_, ?_, ?_, ?_, ?_, ?_, ?_, ?_, ?_, ?_, ?_, ?_⟩
    · rw [hv']; exact hsvis
    · rw [hv', hp']; exact hsL
    · rw [hq', hv']; exact hqvis
    · rw [hq']; exact hqnd
    · rw [hv']; exact hstart
    · unfold BfsChainMin
      rw [hv', hp']
      exact hPM
    · unfold BfsClosedExcept
      rw [hv', hq']
      exact hCX
    · unfold BfsExpandedNoGoal
      rw [hv', hq']
      exact hENG
    · rw [hv', hq']
      exact hO4
    · unfold BfsWindowAt
      rw [hv', hq', hp']
      exact hWin
    · rw [hv']; exact h
    · rw [hv']
  · rw [if_neg h] at hq' hv' hp'
    have hfresh : m.1 ∉ st.visited := h
    have hms : m.1 ≠ s := fun hc => hfresh (hc ▸ hsvis)
    have hagree : ∀ k ∈ st.visited,
        (fun k => if k = m.1 then some s else st.parent k) k = st.parent k := by
      intro k hk
      have : k ≠ m.1 := fun hc => hfresh (hc ▸ hk)
      simp [this]
    have hsub : st.visited ⊆ insert m.1 st.visited := Finset.subset_insert _ _
    have hsL' : PChainIn (fun k => if k = m.1 then some s else st.parent k) inst
        (insert m.1 st.visited) s L :=
      PChainIn_mono _ inst hsub s L (PChainIn_frame inst hagree s L hsL)
    have hchain_new : PChainIn (fun k => if k = m.1 then some s else st.parent k) inst
        (insert m.1 st.visited) m.1 (L + 1) :=
      ⟨Finset.mem_insert_self _ _, s, by simp, hsL'⟩
    have hmnotq : m.1 ∉ st.q := fun hc => hfresh (hqvis m.1 hc)
    have hLcard : L < st.visited.card := by
      rcases hPM s hsvis with ⟨δ, hδcard, hδch, _⟩
      have : δ = L := PChain_unique st.parent inst δ L s
        (PChainIn_toPChain _ inst _ s δ hδch)
        (PChainIn_toPChain _ inst _ s L hsL)
      omega
    have hcard' : (insert m.1 st.visited).card = st.visited.card + 1 :=
      Finset.card_insert_of_not_mem hfresh
    have hminNew : ∀ n, ReachableIn inst n m.1 → L + 1 ≤ n := by
      intro n hn
      by_contra hcon
      push_neg at hcon
      cases n with
      | zero => exact hfresh (reachableIn_zero inst m.1 hn ▸ hstart)
      | succ n' =>
        rcases reachableIn_succ inst n' m.1 hn with ⟨v, d, hprev, hmem⟩
        have hn'L : n' < L := by omega
        rcases hO4 n' v hprev hn'L with ⟨hvv, hvq⟩
        have hvs : v ≠ s := by
          intro hc
          exact absurd (hminS n' (hc ▸ hprev)) (by omega)
        exact hfresh (hCX v hvv hvq hvs (m.1, d) hmem)
    refine ⟨?_, ?_, ?_, ?_, ?_, ?_, ?_, ?_, ?_, ?_, ?_, ?_⟩
    · rw [hv']; exact Finset.mem_insert_of_mem hsvis
    · rw [hv', hp']; exact hsL'
    · rw [hq', hv']
      intro v hv
      rcases List.mem_append.mp hv with hv1 | hv1
      · exact Finset.mem_insert_of_mem (hqvis v hv1)
      · rcases List.mem_singleton.mp hv1 with rfl
        exact Finset.mem_insert_self _ _
    · rw [hq']
      rw [List.nodup_append]
      exact ⟨hqnd, List.nodup_singleton _, by
        intro a ha hb
        rcases List.mem_singleton.mp hb with rfl
        exact hmnotq ha⟩
    · rw [hv']; exact Finset.mem_insert_of_mem hstart
    · unfold BfsChainMin
      rw [hv', hp']
      intro k hk
      rcases Finset.mem_insert.mp hk with rfl | hk'
      · exact ⟨L + 1, by omega, hchain_new, hminNew⟩
      · rcases hPM k hk' with ⟨δ, hδc, hδch, hδmin⟩
        exact ⟨δ, by omega,
          PChainIn_mono _ inst hsub k δ (PChainIn_frame inst hagree k δ hδch), hδmin⟩
    · unfold BfsClosedExcept
      rw [hv', hq']
      intro k hk hknq hks p hp
      rcases Finset.mem_insert.mp hk with rfl | hk'
      · exact absurd (List.mem_append.mpr (Or.inr (List.mem_singleton_self _))) hknq
      · have hknq' : k ∉ st.q := fun hc => hknq (List.mem_append.mpr (Or.inl hc))
        exact Finset.mem_insert_of_mem (hCX k hk' hknq' hks p hp)
    · unfold BfsExpandedNoGoal
      rw [hv', hq']
      intro k hk hknq
      rcases Finset.mem_insert.mp hk with rfl | hk'
      · exact absurd (List.mem_append.mpr (Or.inr (List.mem_singleton_self _))) hknq
      · exact hENG k hk' (fun hc => hknq (List.mem_append.mpr (Or.inl hc)))
    · rw [hv', hq']
      intro n u hn hnL
      rcases hO4 n u hn hnL with ⟨huv, hunq⟩
      refine ⟨Finset.mem_insert_of_mem huv, ?_⟩
      intro hc
      rcases List.mem_append.mp hc with hc1 | hc1
      · exact hunq hc1
      · rcases List.mem_singleton.mp hc1 with rfl
        exact hfresh huv
    · unfold BfsWindowAt
      rw [hv', hq', hp']
      rcases hWin with ⟨qa, qb, hsplit, ha, hb⟩
      refine ⟨qa, qb ++ [m.1], by rw [hsplit, List.append_assoc], ?_, ?_⟩
      · intro v hv δ hδ
        have hvvis : v ∈ st.visited := hqvis v (hsplit ▸ List.mem_append.mpr (Or.inl hv))
        rcases hPM v hvvis with ⟨δv, _, hδvch, _⟩
        have hδv : δv = L := ha v hv δv hδvch
        have : δ = δv := PChain_unique _ inst δ δv v
          (PChainIn_toPChain _ inst _ v δ hδ)
          (PChainIn_toPChain _ inst _ v δv
            (PChainIn_mono _ inst hsub v δv (PChainIn_frame inst hagree v δv hδvch)))
        omega
      · intro v hv δ hδ
        rcases List.mem_append.mp hv with hv1 | hv1
        · have hvvis : v ∈ st.visited := hqvis v (hsplit ▸ List.mem_append.mpr (Or.inr hv1))
          rcases hPM v hvvis with ⟨δv, _, hδvch, _⟩
          have hδv : δv = L + 1 := hb v hv1 δv hδvch
          have : δ = δv := PChain_unique _ inst δ δv v
            (PChainIn_toPChain _ inst _ v δ hδ)
            (PChainIn_toPChain _ inst _ v δv
              (PChainIn_mono _ inst hsub v δv (PChainIn_frame inst hagree v δv hδvch)))
          omega
        · rcases List.mem_singleton.mp hv1 with rfl
          exact PChain_unique _ inst δ (L + 1) m.1
            (PChainIn_toPChain _ inst _ m.1 δ hδ)
            (PChainIn_toPChain _ inst _ m.1 (L + 1) hchain_new)
    · rw [hv']; exact Finset.mem_insert_self _ _
    · rw [hv']; exact hsub

/-- The whole successor fold preserves the optimality invariants and visits
every generated successor. -/
theorem bfs_fold_opt (inst : Instance) (s : State) (L : Nat) :
    ∀ (ms : List (State × String)) (st : BfsSt),
      (∀ m' ∈ ms, m' ∈ next_states s inst) →
      s ∈ st.visited →
      PChainIn st.parent inst st.visited s L →
      (∀ n, ReachableIn inst n s → L ≤ n) →
      (∀ v ∈ st.q, v ∈ st.visited) →
      st.q.Nodup →
      make_start_state inst ∈ st.visited →
      BfsChainMin inst st →
      BfsClosedExcept inst s st →
      BfsExpandedNoGoal inst st →
      (∀ n u, ReachableIn inst n u → n < L → u ∈ st.visited ∧ u ∉ st.q) →
      BfsWindowAt inst L st →
      (∀ v ∈ (ms.foldl (bfs_scan s) st).q, v ∈ (ms.foldl (bfs_scan s) st).visited) ∧
      (ms.foldl (bfs_scan s) st).q.Nodup ∧
      make_start_state inst ∈ (ms.foldl (bfs_scan s) st).visited ∧
      BfsChainMin inst (ms.foldl (bfs_scan s) st) ∧
      BfsClosedExcept inst s (ms.foldl (bfs_scan s) st) ∧
      BfsExpandedNoGoal inst (ms.foldl (bfs_scan s) st) ∧
      BfsWindowAt inst L (ms.foldl (bfs_scan s) st) ∧
      (∀ m' ∈ ms, m'.1 ∈ (ms.foldl (bfs_scan s) st).visited) ∧
      st.visited ⊆ (ms.foldl (bfs_scan s) st).visited := by
  intro ms
  induction ms with
  | nil =>
    intro st _ _ _ _ hqvis hqnd hstart hPM hCX hENG _ hWin
    exact ⟨hqvis, hqnd, hstart, hPM, hCX, hENG, hWin,
      fun m' hm' => absurd hm' (List.not_mem_nil m'), Finset.Subset.refl _⟩
  | cons m rest ih =>
    intro st hms hsvis hsL hminS hqvis hqnd hstart hPM hCX hENG hO4 hWin
    rcases bfs_scan_opt inst s L st m (hms m (List.mem_cons_self _ _)) hsvis hsL hminS
        hqvis hqnd hstart hPM hCX hENG hO4 hWin with
      ⟨g1, g2, g3, g4, g5, g6, g7, g8, g9, g10, g11, g12⟩
    rcases ih (bfs_scan s st m) (fun m' hm' => hms m' (List.mem_cons_of_mem _ hm'))
        g1 g2 hminS g3 g4 g5 g6 g7 g8 g9 g10 with
      ⟨f1, f2, f3, f4, f5, f6, f7, f8, f9⟩
    refine ⟨f1, f2, f3, f4, f5, f6, f7, ?_, Finset.Subset.trans g12 f9⟩
    intro m' hm'
    rcases List.mem_cons.mp hm' with rfl | hm''
    · exact f9 g11
    · exact f8 m' hm''

/-- The BFS loop returns the minimal goal distance: a non-empty result path
reports a depth that is realizable by a legal move sequence to a goal and
that no legal move sequence to any goal can beat. -/
theorem bfsF_optimal (inst : Instance) :
    ∀ (fuel : Nat) (st : BfsSt) (p : List (State × Option String)) (m : Metrics)
      (stf : BfsSt),
      bfsF inst fuel st = some (p, m, stf) → p ≠ [] →
      (∀ v ∈ st.q, v ∈ st.visited) →
      st.q.Nodup →
      make_start_state inst ∈ st.visited →
      st.action (make_start_state inst) = none →
      EdgesOk inst st.parent st.action →
      BfsChainMin inst st →
      (∀ k ∈ st.visited, k ∉ st.q → ∀ p' ∈ next_states k inst, p'.1 ∈ st.visited) →
      BfsExpandedNoGoal inst st →
      (∃ L, BfsWindowAt inst L st) →
      ∃ d : Nat, m.solution_depth = (d : Int) ∧
        (∃ g, ReachableIn inst d g ∧ is_goal g inst = true) ∧
        ∀ n g, ReachableIn inst n g → is_goal g inst = true → d ≤ n := by
  intro fuel
  induction fuel with
  | zero =>
    intro st p m stf h
    simp [bfsF] at h
  | succ fuel ih =>
    intro st p m stf h hne hqvis hqnd hstart hA hE hPM hCl hENG hW
    unfold bfsF at h
    cases hqe : st.q with
    | nil =>
      rw [hqe] at h
      simp only at h
      injection h with h2
      exact absurd (congrArg Prod.fst h2).symm hne
    | cons s rest =>
      rw [hqe] at h
      simp only at h
      rcases bfs_window_pop inst st s rest hqe hW with
        ⟨L, hsrule, qa, qb, hrestsplit, ha, hb⟩
      have hsvis : s ∈ st.visited := hqvis s (by rw [hqe]; exact List.mem_cons_self _ _)
      rcases hPM s hsvis with ⟨δs, hδcard, hchs, hmins⟩
      have hδsL : δs = L := hsrule δs hchs
      subst hδsL
      have hqwin : ∀ v ∈ st.q, ∀ δ, PChainIn st.parent inst st.visited v δ →
          δ = δs ∨ δ = δs + 1 := by
        intro v hv δ hδ
        rw [hqe] at hv
        rcases List.mem_cons.mp hv with rfl | hv'
        · exact Or.inl (hsrule δ hδ)
        · rw [hrestsplit] at hv'
          rcases List.mem_append.mp hv' with hv1 | hv1
          · exact Or.inl (ha v hv1 δ hδ)
          · exact Or.inr (hb v hv1 δ hδ)
      have hO4pre := bfs_frontier_complete inst st δs hstart hPM hCl hqwin
      by_cases hg : is_goal s inst = true
      · rw [if_pos hg] at h
        injection h with h2
        have hm2 : m = ({ nodes_generated := st.nodes_generated,
                          nodes_expanded := st.nodes_expanded + 1,
                          max_frontier_size := st.max_frontier,
                          solution_depth :=
                            ((chain st.parent st.action (st.visited.card + 1)
                              (some s) []).length : Int) - 1,
                          solution_cost :=
                            ((chain st.parent st.action (st.visited.card + 1)
                              (some s) []).length : Int) - 1 } : Metrics) := by
          have h3 := congrArg (fun x => x.2.1) h2
          exact h3.symm
        rcases chain_of_pchain st.parent st.action inst δs s
            (PChainIn_toPChain _ inst _ s δs hchs) (st.visited.card + 1)
            (by omega) [] with ⟨out, hout, _, hlen⟩
        refine ⟨δs, ?_, ⟨s, pchain_reachable inst st.parent st.action hE δs s
          (PChainIn_toPChain _ inst _ s δs hchs), hg⟩, ?_⟩
        · rw [hm2]
          simp only
          rw [hout, List.append_nil, hlen]
          push_cast
          ring
        · intro n g' hn hg'
          by_contra hcon
          push_neg at hcon
          rcases hO4pre n g' hn hcon with ⟨hgv, hgq⟩
          exact absurd hg' (by rw [hENG g' hgv hgq]; exact Bool.false_ne_true)
      · rw [if_neg hg] at h
        have hrestvis : ∀ v ∈ rest, v ∈ st.visited := by
          intro v hv
          exact hqvis v (by rw [hqe]; exact List.mem_cons_of_mem _ hv)
        have hnodup : (s :: rest).Nodup := hqe ▸ hqnd
        have hsrest : s ∉ rest := (List.nodup_cons.mp hnodup).1
        have hrestnd : rest.Nodup := (List.nodup_cons.mp hnodup).2
        set st1 : BfsSt := { st with q := rest, nodes_expanded := st.nodes_expanded + 1 }
          with hst1
        have hminS : ∀ n, ReachableIn inst n s → δs ≤ n := hmins
        have hCX1 : BfsClosedExcept inst s st1 := by
          intro k hk hknq hks p' hp'
          refine hCl k hk ?_ p' hp'
          rw [hqe]
          intro hc
          rcases List.mem_cons.mp hc with rfl | hc'
          · exact hks rfl
          · exact hknq hc'
        have hENG1 : BfsExpandedNoGoal inst st1 := by
          intro k hk hknq
          by_cases hks : k = s
          · rw [hks]
            simpa using hg
          · refine hENG k hk ?_
            rw [hqe]
            intro hc
            rcases List.mem_cons.mp hc with rfl | hc'
            · exact hks rfl
            · exact hknq hc'
        have hO41 : ∀ n u, ReachableIn inst n u → n < δs →
            u ∈ st1.visited ∧ u ∉ st1.q := by
          intro n u hn hnl
          rcases hO4pre n u hn hnl with ⟨h1, h2⟩
          refine ⟨h1, ?_⟩
          intro hc
          exact h2 (by rw [hqe]; exact List.mem_cons_of_mem _ hc)
        have hWin1 : BfsWindowAt inst δs st1 :=
          ⟨qa, qb, hrestsplit, ha, hb⟩
        rcases bfs_fold_opt inst s δs (next_states s inst) st1
            (fun m' hm' => hm') hsvis hchs hminS hrestvis hrestnd hstart hPM
            hCX1 hENG1 hO41 hWin1 with
          ⟨f1, f2, f3, f4, f5, f6, f7, f8, f9⟩
        have hreco := bfs_fold_reco inst s (next_states s inst) st1 hsvis
          (fun m' hm' => hm') hE hA hstart
          (fun k hk => by
            rcases hPM k hk with ⟨δ, hδ1, hδ2, _⟩
            exact ⟨δ, hδ1, hδ2⟩)
        refine ih _ p m stf h hne f1 f2 f3 hreco.2.1 hreco.1 f4 ?_ f6 ⟨δs, f7⟩
        intro k hk hknq p' hp'
        by_cases hks : k = s
        · exact f8 p' (hks ▸ hp')
        · exact f5 k hk hknq hks p' hp'

/-- `bfs_solve_with_metrics` on success reports exactly the minimal goal
distance: `bfsF_optimal` specialised to the fresh initial search state. -/
theorem bfs_solve_opt (inst : Instance) (p : List (State × Option String))
    (m : Metrics) (h : bfs_solve_with_metrics inst = some (p, m)) (hne : p ≠ []) :
    ∃ d : Nat, m.solution_depth = (d : Int) ∧
      (∃ g, ReachableIn inst d g ∧ is_goal g inst = true) ∧
      ∀ n g, ReachableIn inst n g → is_goal g inst = true → d ≤ n := by
  unfold bfs_solve_with_metrics at h
  cases hr : bfs_run inst with
  | none => rw [hr] at h; simp at h
  | some r =>
    obtain ⟨p', m', stf⟩ := r
    rw [hr] at h
    injection h with h2
    have hp : p' = p := congrArg Prod.fst h2
    have hm : m' = m := congrArg Prod.snd h2
    subst hp
    subst hm
    have hb : bfsF inst (bfs_fuel inst) (bfs_init inst) = some (p', m', stf) := hr
    refine bfsF_optimal inst (bfs_fuel inst) (bfs_init inst) p' m' stf hb hne
      ?_ ?_ ?_ rfl ?_ ?_ ?_ ?_ ?_
    · intro v hv
      rcases List.mem_singleton.mp hv with rfl
      exact Finset.mem_singleton_self _
    · exact List.nodup_singleton _
    · exact Finset.mem_singleton_self _
    · intro k x hk
      cases hk
    · intro k hk
      have hk' := Finset.mem_singleton.mp hk
      subst hk'
      refine ⟨0, ?_, ⟨rfl, rfl, Finset.mem_singleton_self _⟩, fun n _ => Nat.zero_le n⟩
      exact Finset.card_pos.mpr ⟨make_start_state inst, hk⟩
    · intro k hk hknq p' hp'
      have hk' := Finset.mem_singleton.mp hk
      subst hk'
      exact absurd (List.mem_singleton.mpr rfl) hknq
    · intro k hk hknq
      have hk' := Finset.mem_singleton.mp hk
      subst hk'
      exact absurd (List.mem_singleton.mpr rfl) hknq
    · refine ⟨0, [make_start_state inst], [], rfl, ?_, ?_⟩
      · intro v hv δ hδ
        cases δ with
        | zero => rfl
        | succ n =>
          rcases hδ with ⟨_, x, hx, _⟩
          cases hx
      · intro v hv
        exact absurd hv (List.not_mem_nil v)

/-- C3: whenever BFS and IDS both return a non-empty path on the same
instance, the two reported `solution_depth`s agree, and their common value is
the length of a shortest legal move sequence from the start to a goal state:
some goal is reachable in exactly that many moves and none in fewer. -/
theorem claim3_same_minimal_depth (inst : Instance) (cap : Nat)
    (pb qi : List (State × Option String)) (mb : Metrics) (mi : IdsMetrics)
    (hb : bfs_solve_with_metrics inst = some (pb, mb))
    (hi : ids_solve_with_metrics inst cap = (qi, mi))
    (hbne : pb ≠ []) (hine : qi ≠ []) :
    mb.solution_depth = mi.solution_depth ∧
    ∃ d : Nat, mb.solution_depth = (d : Int) ∧
      (∃ g, ReachableIn inst d g ∧ is_goal g inst = true) ∧
      ∀ n g, ReachableIn inst n g → is_goal g inst = true → d ≤ n := by
  rcases bfs_solve_opt inst pb mb hb hbne with ⟨db, hdb, ⟨gb, hgbr, hgbg⟩, hminb⟩
  unfold ids_solve_with_metrics at hi
  rw [List.range_eq_range'] at hi
  rcases ids_go_min inst (cap + 1) 0 _ qi mi hi hine
      (fun n g _ _ => Nat.zero_le n) with ⟨di, hdi, ⟨gi, hgir, hgig⟩, hmini⟩
  have h1 : db ≤ di := hminb di gi hgir hgig
  have h2 : di ≤ db := hmini db gb hgbr hgbg
  have hd : db = di := Nat.le_antisymm h1 h2
  refine ⟨?_, db, hdb, ⟨gb, hgbr, hgbg⟩, hminb⟩
  rw [hdb, hdi, hd]

set_option maxRecDepth 100000 in
/-- Witness for C3 at a concrete input: on the classic instance both solvers
return depth 7, which is exactly the minimal goal distance. -/
theorem claim3_witness :
    ({ nodes_generated := 19, nodes_expanded := 10, max_frontier_size := 2,
       solution_depth := 7, solution_cost := 7 } : Metrics).solution_depth =
      ({ nodes_generated := 65, nodes_expanded := 48, max_frontier_size := 8,
         solution_depth := 7, solution_cost := 7,
         depth_limit_used := some 7 } : IdsMetrics).solution_depth ∧
    ∃ d : Nat,
      ({ nodes_generated := 19, nodes_expanded := 10, max_frontier_size := 2,
         solution_depth := 7, solution_cost := 7 } : Metrics).solution_depth = (d : Int) ∧
      (∃ g, ReachableIn INSTANCE_A d g ∧ is_goal g INSTANCE_A = true) ∧
      ∀ n g, ReachableIn INSTANCE_A n g → is_goal g INSTANCE_A = true → d ≤ n :=
  claim3_same_minimal_depth INSTANCE_A 64
    [((({"W", "G", "C"} : Finset String), "L"), (none : Option String)),
      ((({"W", "C"} : Finset String), "R"), some "Farmer takes G L→R"),
      ((({"W", "C"} : Finset String), "L"), some "Farmer takes nothing R→L"),
      ((({"W"} : Finset String), "R"), some "Farmer takes C L→R"),
      ((({"G", "W"} : Finset String), "L"), some "Farmer takes G R→L"),
      ((({"G"} : Finset String), "R"), some "Farmer takes W L→R"),
      ((({"G"} : Finset String), "L"), some "Farmer takes nothing R→L"),
      (((∅ : Finset String), "R"), some "Farmer takes G L→R")]
    [((({"W", "G", "C"} : Finset String), "L"), (none : Option String)),
      ((({"W", "C"} : Finset String), "R"), some "Farmer takes G L→R"),
      ((({"W", "C"} : Finset String), "L"), some "Farmer takes nothing R→L"),
      ((({"W"} : Finset String), "R"), some "Farmer takes C L→R"),
      ((({"G", "W"} : Finset String), "L"), some "Farmer takes G R→L"),
      ((({"G"} : Finset String), "R"), some "Farmer takes W L→R"),
      ((({"G"} : Finset String), "L"), some "Farmer takes nothing R→L"),
      (((∅ : Finset String), "R"), some "Farmer takes G L→R")]
    { nodes_generated := 19, nodes_expanded := 10, max_frontier_size := 2,
      solution_depth := 7, solution_cost := 7 }
    { nodes_generated := 65, nodes_expanded := 48, max_frontier_size := 8,
      solution_depth := 7, solution_cost := 7, depth_limit_used := some 7 }
    (by decide) (by decide) (by decide) (by decide)

/-- C1: every `(state, label)` pair returned by `next_states` satisfies
`state_valid`; unsafe candidate moves are silently dropped, so no successor
ever violates safety, for any instance and any state. -/
theorem claim1_successors_always_safe (inst : Instance) (s : State)
    (p : State × String) (h : p ∈ next_states s inst) :
    state_valid p.1 inst = true :=
  next_states_safe inst s p h

/-- Witness for C1 at a concrete input: the goat move out of the classic
start state is produced by `next_states` and is indeed safe. -/
theorem claim1_witness :
    state_valid (({"W", "C"} : Finset String), "R") INSTANCE_A = true :=
  claim1_successors_always_safe INSTANCE_A (make_start_state INSTANCE_A)
    ((({"W", "C"} : Finset String), "R"), "Farmer takes G L→R") (by decide)

/-- C2: on the classic instance `INSTANCE_A`, both solvers return a non-empty
path of depth 7 (8 states), the reported `solution_depth` is 7, and the first
move of each returned path is the one carrying the goat. -/
theorem claim2_classic_depth7_first_move_goat :
    (bfs_solve_with_metrics INSTANCE_A).map (fun r => r.1.length) = some 8 ∧
    (bfs_solve_with_metrics INSTANCE_A).map (fun r => r.2.solution_depth) = some 7 ∧
    (bfs_solve_with_metrics INSTANCE_A).map (fun r => (r.1.get? 1).map Prod.snd) =
      some (some (some "Farmer takes G L→R")) ∧
    (ids_solve_default INSTANCE_A).1.length = 8 ∧
    (ids_solve_default INSTANCE_A).2.solution_depth = 7 ∧
    ((ids_solve_default INSTANCE_A).1.get? 1).map Prod.snd =
      some (some "Farmer takes G L→R") := by
  refine ⟨by decide, by decide, by decide, by decide, by decide, by decide⟩

/-- C4 (code evidence): `Instance` construction performs no validation
whatsoever — an empty catalog and a forbidden pair naming unknown items are
both accepted silently, and the solvers run on them to normal completion
instead of any configuration error being raised. -/
theorem claim4_malformed_instances_accepted :
    bfs_solve_with_metrics INSTANCE_EMPTY =
      some ([(((∅ : Finset String), "L"), (none : Option String))],
        { nodes_generated := 0, nodes_expanded := 1, max_frontier_size := 1
          solution_depth := 0, solution_cost := 0 }) ∧
    bfs_solve_with_metrics INSTANCE_DANGLING =
      some ([((({"A"} : Finset String), "L"), none),
             (((∅ : Finset String), "R"), some "Farmer takes A L→R")],
        { nodes_generated := 3, nodes_expanded := 3, max_frontier_size := 2
          solution_depth := 1, solution_cost := 1 }) ∧
    ids_solve_default INSTANCE_DANGLING =
      ([((({"A"} : Finset String), "L"), none),
        (((∅ : Finset String), "R"), some "Farmer takes A L→R")],
        { nodes_generated := 2, nodes_expanded := 4, max_frontier_size := 2
          solution_depth := 1, solution_cost := 1, depth_limit_used := some 1 }) := by
  refine ⟨by decide, by decide, by decide⟩

/-- C5 counterexample: on `INSTANCE_A` the BFS finishes with
`nodes_generated = 19` while only 10 distinct states were ever enqueued
(the visited set), so the final counter is NOT `distinct enqueued - 1 = 9`:
the counter is incremented for already-visited successors too. -/
theorem claim5_counterexample :
    (bfs_run INSTANCE_A).map (fun r => (r.2.1.nodes_generated, r.2.2.visited.card)) =
      some (19, 10) ∧ (19 : Nat) ≠ 10 - 1 := by
  refine ⟨by decide, by decide⟩

/-- C5 as amended: in the BFS successor loop, `nodes_generated` is incremented
exactly once per successor produced — counting already-visited successors as
well — so one expansion adds exactly `(next_states s inst).length` to it. -/
theorem claim5_generated_counts_every_successor (inst : Instance) (s : State)
    (st : BfsSt) :
    ((next_states s inst).foldl (bfs_scan s) st).nodes_generated =
      st.nodes_generated + (next_states s inst).length := by
  generalize next_states s inst = ms
  induction ms generalizing st with
  | nil => simp
  | cons m rest ih =>
    have hstep : ∀ st' : BfsSt,
        (bfs_scan s st' m).nodes_generated = st'.nodes_generated + 1 := by
      intro st'
      unfold bfs_scan
      by_cases h : m.1 ∈ st'.visited <;> simp [h]
    simp only [List.foldl_cons, ih, hstep, List.length_cons]
    omega

/-- C6 counterexample: at the start state of `INSTANCE_BA` (catalog order
`B, A`, nothing forbidden) the source enumerates cargo candidates in sorted
order (`A` before `B`), not catalog order, so the two enumerations differ. -/
theorem claim6_counterexample :
    next_states (make_start_state INSTANCE_BA) INSTANCE_BA ≠
      next_states_catalog_order (make_start_state INSTANCE_BA) INSTANCE_BA := by
  decide

/-- C6 as amended: `next_states` attempts the empty-cargo move first and then
one candidate per item of the agent's current bank in ascending Python string
order (code-point lexicographic), each drawn exactly once; the result lists
the safe candidates in exactly this order. -/
theorem claim6_order_empty_first_then_sorted (inst : Instance) (s : State) :
    ∃ l : List String,
      l.Pairwise (fun a b => strLt a b = true) ∧
      (∀ x, x ∈ l ↔
        x ∈ (if s.2 == "L" then s.1 else inst.items.toFinset \ s.1)) ∧
      next_states s inst =
        (none :: l.map some).filterMap (mk_move inst s.1 (s.2 == "L")) := by
  refine ⟨sortedBank (if s.2 == "L" then s.1 else inst.items.toFinset \ s.1),
    sortedBank_pairwise _, fun x => mem_sortedBank _ x, ?_⟩
  unfold next_states
  rfl

/-- C9: the validity verdict is invariant under bank relabeling — replacing
the left set by its catalog complement and flipping the farmer's side yields
the same `state_valid` verdict, whenever the left set lies in the catalog. -/
theorem claim9_relabel_symmetric (inst : Instance) (left : Finset String)
    (farmer : String) (h : left ⊆ inst.items.toFinset) :
    state_valid (inst.items.toFinset \ left, if farmer == "L" then "R" else "L") inst =
      state_valid (left, farmer) inst := by
  unfold state_valid
  have hdd : inst.items.toFinset \ (inst.items.toFinset \ left) = left :=
    sdiff_sdiff_eq_self h
  simp only [hdd]
  by_cases hf : farmer == "L"
  · have : ((if farmer == "L" then "R" else "L") == "L") = false := by
      rw [if_pos hf]; rfl
    rw [this, hf]
    simp [Bool.and_comm]
  · have hff : (farmer == "L") = false := by simpa using hf
    have : ((if farmer == "L" then "R" else "L") == "L") = true := by
      rw [if_neg (by simp [hff])]; rfl
    rw [this, hff]
    simp [Bool.and_comm]

/-- C8: for either solver, a non-empty returned path ends at a state
satisfying `is_goal`, and no state at an earlier position of the path
satisfies `is_goal`. -/
theorem claim8_goal_exactly_at_path_end (inst : Instance) (cap : Nat) :
    (∀ p m, bfs_solve_with_metrics inst = some (p, m) → p ≠ [] →
      p.getLast?.map (fun x => is_goal x.1 inst) = some true ∧
      ∀ x ∈ p.dropLast, is_goal x.1 inst = false) ∧
    (∀ p m, ids_solve_with_metrics inst cap = (p, m) → p ≠ [] →
      p.getLast?.map (fun x => is_goal x.1 inst) = some true ∧
      ∀ x ∈ p.dropLast, is_goal x.1 inst = false) := by
  constructor
  · intro p m h hne
    unfold bfs_solve_with_metrics at h
    cases hr : bfs_run inst with
    | none => rw [hr] at h; simp at h
    | some r =>
      rw [hr] at h
      injection h with h2
      have hp : r.1 = p := congrArg Prod.fst h2
      subst hp
      exact bfsF_goal_end inst (bfs_fuel inst) (bfs_init inst) r.1 r.2.1 r.2.2
        (by rw [← hr]; rfl) (fun k x hk => by cases hk) hne
  · intro p m h hne
    exact ids_go_goal_end inst (List.range (cap + 1)) _ p m h hne

/-- Witness for C8 at a concrete input: the path the BFS returns on the
classic instance ends at the goal and passes through no goal earlier. -/
theorem claim8_witness :
    ([((({"W", "G", "C"} : Finset String), "L"), (none : Option String)),
      ((({"W", "C"} : Finset String), "R"), some "Farmer takes G L→R"),
      ((({"W", "C"} : Finset String), "L"), some "Farmer takes nothing R→L"),
      ((({"W"} : Finset String), "R"), some "Farmer takes C L→R"),
      ((({"G", "W"} : Finset String), "L"), some "Farmer takes G R→L"),
      ((({"G"} : Finset String), "R"), some "Farmer takes W L→R"),
      ((({"G"} : Finset String), "L"), some "Farmer takes nothing R→L"),
      (((∅ : Finset String), "R"), some "Farmer takes G L→R")] :
        List (State × Option String)).getLast?.map
        (fun x => is_goal x.1 INSTANCE_A) = some true ∧
    ∀ x ∈ ([((({"W", "G", "C"} : Finset String), "L"), (none : Option String)),
      ((({"W", "C"} : Finset String), "R"), some "Farmer takes G L→R"),
      ((({"W", "C"} : Finset String), "L"), some "Farmer takes nothing R→L"),
      ((({"W"} : Finset String), "R"), some "Farmer takes C L→R"),
      ((({"G", "W"} : Finset String), "L"), some "Farmer takes G R→L"),
      ((({"G"} : Finset String), "R"), some "Farmer takes W L→R"),
      ((({"G"} : Finset String), "L"), some "Farmer takes nothing R→L"),
      (((∅ : Finset String), "R"), some "Farmer takes G L→R")] :
        List (State × Option String)).dropLast, is_goal x.1 INSTANCE_A = false :=
  (claim8_goal_exactly_at_path_end INSTANCE_A 64).1
    [((({"W", "G", "C"} : Finset String), "L"), (none : Option String)),
      ((({"W", "C"} : Finset String), "R"), some "Farmer takes G L→R"),
      ((({"W", "C"} : Finset String), "L"), some "Farmer takes nothing R→L"),
      ((({"W"} : Finset String), "R"), some "Farmer takes C L→R"),
      ((({"G", "W"} : Finset String), "L"), some "Farmer takes G R→L"),
      ((({"G"} : Finset String), "R"), some "Farmer takes W L→R"),
      ((({"G"} : Finset String), "L"), some "Farmer takes nothing R→L"),
      (((∅ : Finset String), "R"), some "Farmer takes G L→R")]
    { nodes_generated := 19, nodes_expanded := 10, max_frontier_size := 2
      solution_depth := 7, solution_cost := 7 }
    (by decide) (by decide)

/-- C7: on an instance with no reachable goal state, both solvers terminate
and return an empty path with sentinel metrics (`solution_depth` and
`solution_cost` both `-1`); for the IDS this failure result (with
`depth_limit_used = None`) is the only failure mode, whether the cutoff
signal dies out or the hard depth cap is exhausted. -/
theorem claim7_no_solution_sentinel (inst : Instance) (cap : Nat)
    (hng : ∀ g, Reachable inst g → is_goal g inst = false) :
    (∃ m, bfs_solve_with_metrics inst = some ([], m) ∧
      m.solution_depth = -1 ∧ m.solution_cost = -1) ∧
    (∃ m, ids_solve_with_metrics inst cap = ([], m) ∧
      m.solution_depth = -1 ∧ m.solution_cost = -1 ∧ m.depth_limit_used = none) := by
  constructor
  · have hcard : 0 < (stateSpace inst).card :=
      Finset.card_pos.mpr ⟨make_start_state inst, start_mem_stateSpace inst⟩
    have hμ : bfs_measure inst (bfs_init inst) < bfs_fuel inst := by
      unfold bfs_measure bfs_fuel bfs_init
      simp only [List.length_singleton]
      have : ({make_start_state inst} : Finset State).card = 1 := Finset.card_singleton _
      rw [this]
      omega
    rcases bfsF_nogoal inst hng (bfs_fuel inst) (bfs_init inst)
        (by intro v hv
            rcases List.mem_singleton.mp hv with rfl
            exact Finset.mem_singleton_self _)
        (by intro v hv
            rcases Finset.mem_singleton.mp hv with rfl
            exact start_mem_stateSpace inst)
        (by intro v hv
            rcases Finset.mem_singleton.mp hv with rfl
            exact ⟨0, ReachableIn.start⟩)
        hμ with ⟨stf, heq⟩
    refine ⟨bfs_fail_metrics stf, ?_, rfl, rfl⟩
    unfold bfs_solve_with_metrics bfs_run
    rw [heq]
    rfl
  · rcases ids_go_nogoal inst hng (List.range (cap + 1))
        { total_gen := 0, total_exp := 0, max_frontier := 1
          parent := fun _ => none, action := fun _ => none } with ⟨stf, heq⟩
    exact ⟨ids_fail_metrics stf, heq, rfl, rfl, rfl⟩

/-- Witness for C7 at a concrete input: on the all-pairs-forbidden three-item
instance nothing but the start is reachable, and both solvers return the
empty path with sentinel metrics. -/
theorem claim7_witness :
    (∃ m, bfs_solve_with_metrics INSTANCE_STUCK = some ([], m) ∧
      m.solution_depth = -1 ∧ m.solution_cost = -1) ∧
    (∃ m, ids_solve_with_metrics INSTANCE_STUCK 64 = ([], m) ∧
      m.solution_depth = -1 ∧ m.solution_cost = -1 ∧ m.depth_limit_used = none) :=
  claim7_no_solution_sentinel INSTANCE_STUCK 64 (by
    intro g hg
    rcases hg with ⟨n, hn⟩
    have hstart : ∀ (n : Nat) (g : State), ReachableIn INSTANCE_STUCK n g →
        g = make_start_state INSTANCE_STUCK := by
      intro n g hn
      induction hn with
      | start => rfl
      | step hprev hmem ihp =>
        rename_i n' s t d
        rw [ihp] at hmem
        have hempty : next_states (make_start_state INSTANCE_STUCK) INSTANCE_STUCK = [] := by
          decide
        rw [hempty] at hmem
        cases hmem
    rw [hstart n g hn]
    decide)

/-- C10 counterexample: `INSTANCE_BADSTART` is a configuration-valid
instance (non-empty catalog, pairs drawn from it, well-formed sides), yet
both solvers return a path whose FIRST state fails `state_valid` — the
unsafe start state is included as-is, so \"every state on the path satisfies
state_valid\" is false as stated. -/
theorem claim10_counterexample :
    instance_ok INSTANCE_BADSTART ∧
    (bfs_solve_with_metrics INSTANCE_BADSTART).map
        (fun r => r.1.map (fun x => state_valid x.1 INSTANCE_BADSTART)) =
      some [false, true, true, true, true] ∧
    (ids_solve_default INSTANCE_BADSTART).1.map
        (fun x => state_valid x.1 INSTANCE_BADSTART) =
      [false, true, true, true, true] := by
  refine ⟨?_, by decide, by decide⟩
  refine ⟨by decide, by decide, by decide, by decide, by decide, by decide, by decide⟩

/-- C10 as amended: for either solver, a non-empty returned path is a genuine
legal move sequence: it starts at `make_start_state` with an absent label,
every consecutive pair is a labelled `next_states` edge (for the IDS this
holds despite the shared, overwritten parent/action maps), the agent's side
alternates, and every state AFTER the first satisfies `state_valid` (the
start state itself is included unvalidated). -/
theorem claim10_path_is_legal_move_sequence (inst : Instance) (cap : Nat) :
    (∀ p m, bfs_solve_with_metrics inst = some (p, m) → p ≠ [] →
      p.head? = some (make_start_state inst, none) ∧
      List.Chain' (fun a b => ∃ d, b.2 = some d ∧ (b.1, d) ∈ next_states a.1 inst) p ∧
      (∀ x ∈ p.tail, state_valid x.1 inst = true) ∧
      List.Chain' (fun a b => b.1.2 ≠ a.1.2) p) ∧
    (∀ p m, ids_solve_with_metrics inst cap = (p, m) → p ≠ [] →
      p.head? = some (make_start_state inst, none) ∧
      List.Chain' (fun a b => ∃ d, b.2 = some d ∧ (b.1, d) ∈ next_states a.1 inst) p ∧
      (∀ x ∈ p.tail, state_valid x.1 inst = true) ∧
      List.Chain' (fun a b => b.1.2 ≠ a.1.2) p) := by
  have hderive : ∀ p : List (State × Option String),
      List.Chain' (fun a b => ∃ d, b.2 = some d ∧ (b.1, d) ∈ next_states a.1 inst) p →
      (∀ x ∈ p.tail, state_valid x.1 inst = true) ∧
      List.Chain' (fun a b => b.1.2 ≠ a.1.2) p := by
    intro p hch
    constructor
    · intro x hx
      rcases chain'_tail_rel _ p hch x hx with ⟨y, d, _, hd2⟩
      exact next_states_safe inst y.1 (x.1, d) hd2
    · refine List.Chain'.imp ?_ hch
      intro a b hr
      rcases hr with ⟨d, _, hd2⟩
      exact next_states_farmer_flips inst a.1 (b.1, d) hd2
  constructor
  · intro p m h hne
    have hrun : ∃ stf, bfs_run inst = some (p, m, stf) := by
      unfold bfs_solve_with_metrics at h
      cases hr : bfs_run inst with
      | none => rw [hr] at h; simp at h
      | some r =>
        rw [hr] at h
        injection h with h2
        refine ⟨r.2.2, ?_⟩
        have h1 : r.1 = p := by exact congrArg Prod.fst h2
        have h2' : r.2.1 = m := by exact congrArg Prod.snd h2
        rw [← h1, ← h2']
    rcases hrun with ⟨stf, hrun⟩
    have hcore := bfsF_path_legal inst (bfs_fuel inst) (bfs_init inst) p m stf hrun
      (by intro v hv
          rcases List.mem_singleton.mp hv with rfl
          exact Finset.mem_singleton_self _)
      (by intro k x hk; cases hk)
      rfl
      (Finset.mem_singleton_self _)
      (by intro k hk
          rcases Finset.mem_singleton.mp hk with rfl
          refine ⟨0, ?_, rfl, rfl, Finset.mem_singleton_self _⟩
          exact Finset.card_pos.mpr ⟨make_start_state inst, hk⟩)
      hne
    exact ⟨hcore.1, hcore.2, hderive p hcore.2⟩
  · intro p m h hne
    have hcore := ids_go_path_legal inst (List.range (cap + 1)) _ p m h hne
    exact ⟨hcore.1, hcore.2, hderive p hcore.2⟩

/-- Witness for C10 at a concrete input: the path the BFS returns on the
classic instance starts at the start state and is a legal move sequence. -/
theorem claim10_witness :
    ([((({"W", "G", "C"} : Finset String), "L"), (none : Option String)),
      ((({"W", "C"} : Finset String), "R"), some "Farmer takes G L→R"),
      ((({"W", "C"} : Finset String), "L"), some "Farmer takes nothing R→L"),
      ((({"W"} : Finset String), "R"), some "Farmer takes C L→R"),
      ((({"G", "W"} : Finset String), "L"), some "Farmer takes G R→L"),
      ((({"G"} : Finset String), "R"), some "Farmer takes W L→R"),
      ((({"G"} : Finset String), "L"), some "Farmer takes nothing R→L"),
      (((∅ : Finset String), "R"), some "Farmer takes G L→R")] :
        List (State × Option String)).head? =
      some (make_start_state INSTANCE_A, none) ∧
    List.Chain' (fun a b => ∃ d, b.2 = some d ∧ (b.1, d) ∈ next_states a.1 INSTANCE_A)
      [((({"W", "G", "C"} : Finset String), "L"), (none : Option String)),
        ((({"W", "C"} : Finset String), "R"), some "Farmer takes G L→R"),
        ((({"W", "C"} : Finset String), "L"), some "Farmer takes nothing R→L"),
        ((({"W"} : Finset String), "R"), some "Farmer takes C L→R"),
        ((({"G", "W"} : Finset String), "L"), some "Farmer takes G R→L"),
        ((({"G"} : Finset String), "R"), some "Farmer takes W L→R"),
        ((({"G"} : Finset String), "L"), some "Farmer takes nothing R→L"),
        (((∅ : Finset String), "R"), some "Farmer takes G L→R")] ∧
    (∀ x ∈ ([((({"W", "G", "C"} : Finset String), "L"), (none : Option String)),
        ((({"W", "C"} : Finset String), "R"), some "Farmer takes G L→R"),
        ((({"W", "C"} : Finset String), "L"), some "Farmer takes nothing R→L"),
        ((({"W"} : Finset String), "R"), some "Farmer takes C L→R"),
        ((({"G", "W"} : Finset String), "L"), some "Farmer takes G R→L"),
        ((({"G"} : Finset String), "R"), some "Farmer takes W L→R"),
        ((({"G"} : Finset String), "L"), some "Farmer takes nothing R→L"),
        (((∅ : Finset String), "R"), some "Farmer takes G L→R")] :
          List (State × Option String)).tail, state_valid x.1 INSTANCE_A = true) ∧
    List.Chain' (fun a b => b.1.2 ≠ a.1.2)
      [((({"W", "G", "C"} : Finset String), "L"), (none : Option String)),
        ((({"W", "C"} : Finset String), "R"), some "Farmer takes G L→R"),
        ((({"W", "C"} : Finset String), "L"), some "Farmer takes nothing R→L"),
        ((({"W"} : Finset String), "R"), some "Farmer takes C L→R"),
        ((({"G", "W"} : Finset String), "L"), some "Farmer takes G R→L"),
        ((({"G"} : Finset String), "R"), some "Farmer takes W L→R"),
        ((({"G"} : Finset String), "L"), some "Farmer takes nothing R→L"),
        (((∅ : Finset String), "R"), some "Farmer takes G L→R")] :=
  (claim10_path_is_legal_move_sequence INSTANCE_A 64).1
    [((({"W", "G", "C"} : Finset String), "L"), (none : Option String)),
      ((({"W", "C"} : Finset String), "R"), some "Farmer takes G L→R"),
      ((({"W", "C"} : Finset String), "L"), some "Farmer takes nothing R→L"),
      ((({"W"} : Finset String), "R"), some "Farmer takes C L→R"),
      ((({"G", "W"} : Finset String), "L"), some "Farmer takes G R→L"),
      ((({"G"} : Finset String), "R"), some "Farmer takes W L→R"),
      ((({"G"} : Finset String), "L"), some "Farmer takes nothing R→L"),
      (((∅ : Finset String), "R"), some "Farmer takes G L→R")]
    { nodes_generated := 19, nodes_expanded := 10, max_frontier_size := 2
      solution_depth := 7, solution_cost := 7 }
    (by decide) (by decide)

/-- Witness for C9 at a concrete input: relabeling the banks of the
mid-puzzle state `({G}, L)` of the classic instance preserves validity. -/
theorem claim9_witness :
    state_valid (INSTANCE_A.items.toFinset \ {"G"}, if ("L" : String) == "L" then "R" else "L")
        INSTANCE_A =
      state_valid (({"G"} : Finset String), "L") INSTANCE_A :=
  claim9_relabel_symmetric INSTANCE_A {"G"} "L" (by decide)

end WGC
